import Mathlib

/-!
Verification development for the deep-research chat route
(src/src/app/api/chat/route.ts).  JavaScript strings are embedded as
`List Char`; the regular expressions of the source are translated into
explicit scanning functions whose semantics follow the JS regex engine on
the patterns in question (leftmost match, greedy `\s*`, lazy capture with
lookahead).  External capabilities (web search, extract, scrape, LLM) are
oracles supplied as parameters.
-/

namespace BrowseComp

/-- Strings of the JS runtime, embedded as lists of characters. -/
abbrev Str := List Char

/-- Whitespace class of JS `\s` and `String.prototype.trim`, restricted to
the ASCII range (the inputs considered here are ASCII). -/
def jsSpace (c : Char) : Bool :=
  c = ' ' || c = '\t' || c = '\n' || c = '\r' || c = '\x0b' || c = '\x0c'

/-- Lowercasing of `String.prototype.toLowerCase` (ASCII range). -/
def lowerStr (s : Str) : Str := s.map Char.toLower

/-- Left part of `String.prototype.trim`. -/
def trimL (s : Str) : Str := s.dropWhile jsSpace

/-- Right part of `String.prototype.trim`. -/
def trimR (s : Str) : Str := (trimL s.reverse).reverse

/-- JS `String.prototype.trim`. -/
def trimStr (s : Str) : Str := trimR (trimL s)

/-- JS `String.prototype.split` with a single-character separator. -/
def splitOnChar (sep : Char) : Str → List Str
  | [] => [[]]
  | c :: t =>
    if c = sep then [] :: splitOnChar sep t
    else
      match splitOnChar sep t with
      | h :: r => (c :: h) :: r
      | [] => [[c]]

/-- JS `text.split('\n')`. -/
def splitNl (s : Str) : List Str := splitOnChar '\n' s

/-- JS `s.toLowerCase().startsWith(pat)` for an already-lowercase `pat`. -/
def lcStartsWith (pat s : Str) : Bool := pat.isPrefixOf (lowerStr s)

/-- Substring test, JS `String.prototype.includes`. -/
def containsSub (pat s : Str) : Bool :=
  (List.range (s.length + 1)).any (fun i => pat.isPrefixOf (s.drop i))

/-- Suffix test, JS `String.prototype.endsWith`. -/
def endsWithStr (pat s : Str) : Bool := pat.isSuffixOf s

def expLabel : Str := ('e' :: "xplanation:".data)
def exaLabel : Str := ('e' :: "xact answer:".data)
def confLabel : Str := ('c' :: "onfidence:".data)

/-- Scanner for the leftmost case-insensitive occurrence of `pat`; returns
the suffix that follows the occurrence.  This is the search performed by
`text.match(/pat.../i)` for a literal alternation-free `pat`. -/
def dropLabelCI (pat : Str) : Str → Option Str
  | [] => none
  | c :: t =>
    if pat.isPrefixOf (lowerStr (c :: t)) then some ((c :: t).drop pat.length)
    else dropLabelCI pat t

/-- Lazy capture `(.*?)` with lookahead `(?=stop₁|stop₂|$)` under the `is`
flags: consume characters until some stop word starts (case-insensitively)
or the string ends. -/
def captureUntil (stops : List Str) : Str → Str
  | [] => []
  | c :: t =>
    if stops.any (fun p => p.isPrefixOf (lowerStr (c :: t))) then []
    else c :: captureUntil stops t

/-- Capture of `/explanation:\s*(.*?)(?=exact answer:|confidence:|$)/is`. -/
def explanationRaw (text : Str) : Option Str :=
  (dropLabelCI expLabel text).map
    (fun r => captureUntil [exaLabel, confLabel] (r.dropWhile jsSpace))

/-- Capture of `/exact answer:\s*(.*?)(?=explanation:|confidence:|$)/is`. -/
def exactAnswerRaw (text : Str) : Option Str :=
  (dropLabelCI exaLabel text).map
    (fun r => captureUntil [expLabel, confLabel] (r.dropWhile jsSpace))

/-- Attempt of `\s*(\d{1,3}%)` directly after a `confidence:` label: greedy
whitespace, one to three digits, then a literal percent sign. -/
def confTail (r : Str) : Option Str :=
  let t := r.dropWhile jsSpace
  let ds := t.takeWhile Char.isDigit
  if ds ≠ [] ∧ ds.length ≤ 3 ∧ (t.drop ds.length).head? = some '%' then
    some (ds ++ ['%'])
  else none

/-- Capture of `/confidence:\s*(\d{1,3}%)/i`: scan left to right for a
`confidence:` occurrence whose tail matches. -/
def confSearch : Str → Option Str
  | [] => none
  | c :: t =>
    if confLabel.isPrefixOf (lowerStr (c :: t)) then
      match confTail ((c :: t).drop confLabel.length) with
      | some r => some r
      | none => confSearch t
    else confSearch t

/-- Test of `/^confidence:\s*(100|[1-9]?[0-9])%$/i` on one line. -/
def validConfLine (line : Str) : Bool :=
  if confLabel.isPrefixOf (lowerStr line) then
    let t := (line.drop confLabel.length).dropWhile jsSpace
    t = ('1' :: "00%".data) ||
      (match t with
       | [d, p] => d.isDigit && p = '%'
       | [d1, d2, p] => ('1' ≤ d1 && d1 ≤ '9') && d2.isDigit && p = '%'
       | _ => false)
  else false

/-- Check of lines 89-92 of the route: exactly three trimmed lines with the
three labels. -/
def valid3 (lines : List Str) : Bool :=
  match lines with
  | [l0, l1, l2] =>
    lcStartsWith expLabel l0 && lcStartsWith exaLabel l1 && validConfLine l2
  | _ => false

def fbLine1a : Str :=
  ('E' :: "xplanation: The research could not find a definitive answer to: \"".data)
def fbLine1b : Str := ('\"' :: ".".data)
def fbLine2 : Str := ('E' :: "xact Answer: Unknown".data)
def fbLine3 : Str := ('C' :: "onfidence: 10%".data)

/-- Three-line fallback answer returned for empty input and for text from
which nothing can be salvaged (lines 83-85 and 125-127). -/
def fallbackAnswer (query : Str) : Str :=
  (fbLine1a ++ query ++ fbLine1b) ++ '\n' :: (fbLine2 ++ '\n' :: fbLine3)

def defaultExplanation : Str :=
  ('T' :: "he research could not find a definitive answer.".data)
def defaultAnswer : Str := ('U' :: "nknown".data)
def defaultConfidence : Str := ('3' :: "0%".data)
def expPrefix : Str := ('E' :: "xplanation: ".data)
def exaPrefix : Str := ('E' :: "xact Answer: ".data)
def confPrefix : Str := ('C' :: "onfidence: ".data)

/-- Formatter `ensureValidBrowseCompFormat` (route lines 81-128). -/
def ensureValidBrowseCompFormat (text query : Str) : Str :=
  if text = [] then fallbackAnswer query
  else
    let lines := (splitNl (trimStr text)).map trimStr
    if valid3 lines then trimStr text
    else
      let explanation := ((explanationRaw text).map trimStr).getD []
      let exactAnswer := ((exactAnswerRaw text).map trimStr).getD []
      let confidence := ((confSearch text).map trimStr).getD []
      if explanation ≠ [] ∨ exactAnswer ≠ [] ∨ confidence ≠ [] then
        let explanation := if explanation = [] then defaultExplanation else explanation
        let exactAnswer := if exactAnswer = [] then defaultAnswer else exactAnswer
        let confidence := if confidence = [] then defaultConfidence else confidence
        let explanation :=
          if lcStartsWith expLabel explanation then explanation
          else expPrefix ++ explanation
        let exactAnswer :=
          if lcStartsWith exaLabel exactAnswer then exactAnswer
          else exaPrefix ++ exactAnswer
        let confidence :=
          if lcStartsWith confLabel confidence then confidence
          else confPrefix ++ confidence
        explanation ++ '\n' :: (exactAnswer ++ '\n' :: confidence)
      else fallbackAnswer query

/-! URL filtering (route lines 338-353).  The platform builtin `new URL` is
modelled for http/https URLs without embedded credentials: parsing succeeds
exactly when the string has an `http://` or `https://` scheme followed by a
nonempty host, and `hostname` is the lowercased text up to the first
`/ ? # :`. -/

def schemeHttps : Str := ('h' :: "ttps://".data)
def schemeHttp : Str := ('h' :: "ttp://".data)

def hostTermChar (c : Char) : Bool := c = '/' || c = '?' || c = '#' || c = ':'

def hostOf (rest : Str) : Option Str :=
  let h := rest.takeWhile (fun c => !(hostTermChar c))
  if h = [] then none else some (lowerStr h)

/-- Model of `new URL(url).hostname`; `none` models the thrown TypeError. -/
def parseUrlHost (url : Str) : Option Str :=
  let l := lowerStr url
  if schemeHttps.isPrefixOf l then hostOf (url.drop schemeHttps.length)
  else if schemeHttp.isPrefixOf l then hostOf (url.drop schemeHttp.length)
  else none

/-- Test of `url.match(/\.(pdf|doc|docx)$/i)` as a boolean. -/
def endsWithExtCI (url : Str) : Bool :=
  let l := lowerStr url
  endsWithStr (".pdf".data) l || endsWithStr (".doc".data) l ||
    endsWithStr (".docx".data) l

def blockedDomains : List Str :=
  ["reddit.com".data, "brainly.com".data, "youtube.com".data, "youtu.be".data,
   "facebook.com".data, "twitter.com".data, "x.com".data, "tiktok.com".data,
   "instagram.com".data]

/-- URL filter `filterUrls` (route lines 338-353). -/
def filterUrls (urls : List Str) : List Str :=
  urls.filter fun url =>
    match parseUrlHost url with
    | none => false
    | some domain =>
      if endsWithExtCI url then false
      else !(blockedDomains.any fun blocked => containsSub blocked domain)

/-- Path of the parsed URL (text from the first `/ ? #` after the host up to
the query or fragment), used only to state the spec-side predicate. -/
def urlPath (url : Str) : Str :=
  let l := lowerStr url
  let rest :=
    if schemeHttps.isPrefixOf l then url.drop schemeHttps.length
    else if schemeHttp.isPrefixOf l then url.drop schemeHttp.length
    else []
  let afterHost := rest.dropWhile (fun c => !(c = '/' || c = '?' || c = '#'))
  afterHost.takeWhile (fun c => !(c = '?' || c = '#'))

def pathEndsExtCI (url : Str) : Bool :=
  let p := lowerStr (urlPath url)
  endsWithStr (".pdf".data) p || endsWithStr (".doc".data) p ||
    endsWithStr (".docx".data) p

/-- Keep-predicate exactly as the spec words it (host-based blocklist and a
check on the WHOLE url string for the document extensions): URLs that parse,
whose host contains no blocked domain, and that do not end in an extension. -/
def specKeepUrl (url : Str) : Bool :=
  (parseUrlHost url).isSome &&
  !(blockedDomains.any fun blocked =>
    containsSub blocked ((parseUrlHost url).getD [])) &&
  !(endsWithExtCI url)

/-- Keep-predicate as claim C7 words it, with the extension check applied to
the PATH of the URL rather than to the whole url string. -/
def claimKeepUrl (url : Str) : Bool :=
  (parseUrlHost url).isSome &&
  !(blockedDomains.any fun blocked =>
    containsSub blocked ((parseUrlHost url).getD [])) &&
  !(pathEndsExtCI url)

/-! Extraction with retry and scrape fallback (route lines 454-494).  The
external Firecrawl calls are oracles: one `AttemptBehavior` per loop
iteration describes what `app.extract` (raced against the 35 s timeout) and
`app.scrapeUrl` would return on that iteration; `none` models a thrown
exception (or the timeout). -/

/-- Value of one element of an array payload; `iother` carries the
`JSON.stringify` serialization of a non-string value. -/
inductive ItemData
  | istr (s : Str)
  | iother (serialized : Str)
deriving DecidableEq

/-- Payload of a successful or unsuccessful extract response (`result.data`).
`pother` carries the serialization of a truthy non-array non-string value;
`pnull` models a falsy payload (null / undefined). -/
inductive ExtractPayload
  | pstr (s : Str)
  | parr (items : List ItemData)
  | pother (serialized : Str)
  | pnull
deriving DecidableEq

def payloadTruthy : ExtractPayload → Bool
  | .pstr s => s ≠ []
  | .parr _ => true
  | .pother _ => true
  | .pnull => false

def stringifyItem : ItemData → Str
  | .istr s => s
  | .iother ser => ser

/-- Model of `JSON.stringify(result.data)` (string escapes elided; the
serialization of compound values is carried by the constructor). -/
def stringifyPayload : ExtractPayload → Str
  | .pstr s => '"' :: (s ++ ['"'])
  | .parr items => '[' :: ((items.map stringifyItem).flatten ++ [']'])
  | .pother ser => ser
  | .pnull => ('n' :: "ull".data)

structure Finding where
  text : Str
  source : Str
deriving DecidableEq

structure AttemptBehavior where
  extract : Option (Bool × ExtractPayload)
  scrape : Option (Bool × Option Str)

def sentinelNames : Str := ('"' :: "names\":[]".data)

def markdownTruthy : Option Str → Bool
  | some s => s ≠ []
  | none => false

/-- Normalization of a successful payload into findings (route lines
462-471). -/
def normalizePayload (data : ExtractPayload) (url : Str) : List Finding :=
  match data with
  | .parr items => items.map fun item => ⟨stringifyItem item, url⟩
  | .pstr s => [⟨s, url⟩]
  | .pother ser => [⟨ser, url⟩]
  | .pnull => [⟨('n' :: "ull".data), url⟩]

/-- The per-URL extractor `extractWithRetry` (route lines 454-494), with the
attempt list standing for the `retries + 1` loop iterations. -/
def extractWithRetry (url : Str) : List AttemptBehavior → List Finding
  | [] => []
  | a :: rest =>
    match a.extract with
    | none => extractWithRetry url rest
    | some (success, data) =>
      if success then normalizePayload data url
      else
        if !success || !(payloadTruthy data) ||
            containsSub sentinelNames (stringifyPayload data) then
          match a.scrape with
          | none => extractWithRetry url rest
          | some (scrapeSuccess, markdown) =>
            if scrapeSuccess && markdownTruthy markdown then
              [⟨(markdown.getD []).take 2000, url⟩]
            else extractWithRetry url rest
        else extractWithRetry url rest

/-- One attempt that yields no finding: a thrown extract, or an unsuccessful
extract whose scrape fallback also fails. -/
def attemptNoYield (a : AttemptBehavior) : Bool :=
  match a.extract with
  | none => true
  | some (success, _) =>
    !success &&
      (match a.scrape with
       | none => true
       | some (scrapeSuccess, markdown) => !(scrapeSuccess && markdownTruthy markdown))

/-! URL frequency ranking (route lines 681-688 and 812-825).  A JS `Map`
iterates in insertion order, so `urlFrequencyMap` is an insertion-ordered
association list; `Array.prototype.sort` is a stable sort, embedded as
`List.mergeSort`. -/

structure UrlFreqEntry where
  url : Str
  frequency : Nat
  title : Str
deriving DecidableEq

/-- Order induced by the comparator `(a, b) => b.frequency - a.frequency`:
`a` may stay before `b` exactly when the comparator is nonpositive. -/
def freqDescLe (a b : UrlFreqEntry) : Bool := b.frequency ≤ a.frequency

/-- Stable insertion into a descending-sorted prefix: the new entry goes
after every earlier entry of greater or equal frequency. -/
def insertStable (x : UrlFreqEntry) : List UrlFreqEntry → List UrlFreqEntry
  | [] => [x]
  | e :: t =>
    if x.frequency ≤ e.frequency then e :: insertStable x t else x :: e :: t

/-- A stable sort realizing `Array.prototype.sort` with the comparator
above (the ECMAScript sort is required to be stable). -/
def jsSortByFreqDesc (entries : List UrlFreqEntry) : List UrlFreqEntry :=
  entries.foldl (fun acc x => insertStable x acc) []

/-- Selection `getUrlsToProcess` (route lines 681-688): sort the map values
by frequency descending, keep unprocessed URLs, take the first three. -/
def getUrlsToProcess (urlFrequencyMap : List UrlFreqEntry)
    (processedUrls : List Str) : List Str :=
  ((((jsSortByFreqDesc urlFrequencyMap).map fun item => item.url).filter
    fun url => !(processedUrls.contains url)).take 3)

structure SearchHit where
  url : Str
  title : Str
deriving DecidableEq

/-- Frequency update for one search result (route lines 814-823). -/
def updateFreq (m : List UrlFreqEntry) (result : SearchHit) : List UrlFreqEntry :=
  if m.any (fun e => e.url == result.url) then
    m.map fun e =>
      if e.url == result.url then { e with frequency := e.frequency + 1 } else e
  else m ++ [⟨result.url, 1, result.title⟩]

/-- The `forEach` over one successful search response. -/
def processSearchResponse (m : List UrlFreqEntry) (hits : List SearchHit) :
    List UrlFreqEntry :=
  hits.foldl updateFreq m

/-! The eval-mode (BrowseComp) research loop, route lines 607-925.  External
behavior is an oracle per hop: the elapsed wall time observed at the top of
the loop, the outcome of each of the five searches (`none` models
`searchWithRetry` throwing after its retries), the findings produced by
`extractWithRetry` per filtered URL, the parsed subquestion-generation
response, and the analysis record (`none` models a falsy analysis value,
reachable through `parseAnalysisResponse` on inputs such as `"false"`).
The pure helpers `generateFallbackQuery` and `extractKeyTerms` (route lines
191-240 and 286-336) only produce search topic strings and are abstracted
as parameters. -/

structure AnalysisResult where
  summary : Str
  hasAnswer : Bool
  confidence : Str
  gaps : List Str
  shouldContinue : Bool
  nextSearchTopic : Option Str
  urlToSearch : Option Str
  subquestions : Option (List Str)
  subAnswer : Option Str
  lastQuery : Option Str
deriving DecidableEq

structure ResearchState where
  findings : List Finding
  summaries : List Str
  nextSearchTopic : Str
  currentDepth : Nat
  failedAttempts : Nat
  maxFailedAttempts : Nat
  processedUrls : List Str
  subquestions : List Str
  answeredSubquestions : List Str
  subAnswers : List (Str × Str)
  urlFrequencyMap : List UrlFreqEntry
deriving DecidableEq

/-- Initial state (route lines 611-623). -/
def initialResearchState : ResearchState :=
  { findings := [], summaries := [], nextSearchTopic := [], currentDepth := 0,
    failedAttempts := 0, maxFailedAttempts := 3, processedUrls := [],
    subquestions := [], answeredSubquestions := [], subAnswers := [],
    urlFrequencyMap := [] }

/-- Eval-mode time budget, `3.5 * 60 * 1000` ms (route line 608). -/
def timeLimit : Nat := 210000

/-- Eval-mode depth bound (route line 609). -/
def maxDepth : Nat := 6

structure HopEnv where
  elapsed : Nat
  subqGen : Option (List Str)
  searches : Nat → Option (List SearchHit)
  extractResult : Str → List Finding
  analysis : Option AnalysisResult

structure LoopEnv where
  question : Str
  hops : Nat → HopEnv
  generateFallbackQuery : Str → Str
  extractKeyTerms : Str → Str

def genericWords : List Str :=
  ["what".data, "when".data, "where".data, "who".data, "how".data,
   "name".data, "info".data, "event".data]

/-- Predicate `isGeneric` (route lines 355-359). -/
def isGeneric (query : Str) : Bool :=
  genericWords.contains (lowerStr (trimStr query)) ||
  (splitOnChar ' ' query).length < 3 ||
  (query ≠ [] && query.all Char.isDigit)

/-- Search topic selection at the top of a hop (route lines 724-796). -/
def selectTopic (env : LoopEnv) (h : HopEnv) (s : ResearchState) :
    Str × ResearchState :=
  if s.currentDepth = 1 then (env.question, s)
  else
    match s.subquestions with
    | q :: rest =>
      (q, { s with subquestions := rest,
                   answeredSubquestions := s.answeredSubquestions ++ [q] })
    | [] =>
      if s.nextSearchTopic = [] ∨ isGeneric s.nextSearchTopic then
        match h.subqGen with
        | some raw =>
          let initialSubs := (raw.filter fun q => 10 < q.length && q.length < 100).take 8
          (match initialSubs with
           | [] => (env.generateFallbackQuery env.question, s)
           | t :: rest =>
             ((if t = [] then env.generateFallbackQuery env.question else t),
              { s with subquestions := rest }))
        | none => (env.extractKeyTerms env.question, s)
      else (s.nextSearchTopic, s)

/-- The five-search round of a hop (route lines 806-831): each successful
search response updates the frequency map; a throw is logged and skipped. -/
def searchRound (h : HopEnv) (s : ResearchState) : ResearchState :=
  (List.range 5).foldl
    (fun st i =>
      match h.searches i with
      | some hits =>
        { st with urlFrequencyMap := processSearchResponse st.urlFrequencyMap hits }
      | none => st)
    s

inductive ExitReason
  | timeLimitReached
  | depthLimit
  | failedAttempts
  | strongEvidence
  | analysisStop
deriving DecidableEq

/-- Tracking of a subquestion answer (route lines 878-883). -/
def applySubAnswer (analysis : AnalysisResult) (searchTopic : Str)
    (sD : ResearchState) : ResearchState :=
  match analysis.subAnswer with
  | some sa =>
    if sa ≠ [] ∧ searchTopic ≠ [] then
      { sD with subAnswers := sD.subAnswers ++ [(searchTopic, sa)] }
    else sD
  | none => sD

/-- Enqueuing of fresh subquestions (route lines 886-891). -/
def applySubquestions (analysis : AnalysisResult) (sE : ResearchState) :
    ResearchState :=
  match analysis.subquestions with
  | some subs =>
    if 0 < subs.length then
      { sE with subquestions := sE.subquestions ++
          subs.filter fun q =>
            !(sE.subquestions.contains q) &&
            !(sE.answeredSubquestions.contains q) }
    else sE
  | none => sE

/-- Tail of a hop once a non-falsy analysis is at hand (route lines
877-924): record sub-answers, subquestions and the summary, then apply the
stop controller. -/
def analysisPhase (analysis : AnalysisResult) (searchTopic : Str)
    (sD : ResearchState) : ResearchState × Option ExitReason × Bool × Bool :=
  let sE := applySubAnswer analysis searchTopic sD
  let sF := applySubquestions analysis sE
  let sG := { sF with summaries := sF.summaries ++ [analysis.summary] }
  let shouldStop :=
    (analysis.hasAnswer && analysis.confidence == ("high".data) &&
      decide (3 ≤ sG.findings.length)) ||
    (analysis.hasAnswer && analysis.confidence == ("medium".data) &&
      decide (6 ≤ sG.findings.length)) ||
    decide (8 ≤ sG.findings.length)
  if shouldStop then (sG, some .strongEvidence, false, false)
  else if !analysis.shouldContinue then (sG, some .analysisStop, false, false)
  else ({ sG with nextSearchTopic := analysis.nextSearchTopic.getD [] },
        none, false, false)

/-- Body of one hop after the depth increment (route lines 724-924); returns
the new state, an exit reason when the body breaks out of the loop, and the
two `failedAttempts` increment flags (`topUrls` empty; falsy analysis). -/
def hopBody (env : LoopEnv) (h : HopEnv) (s : ResearchState) :
    ResearchState × Option ExitReason × Bool × Bool :=
  let ts := selectTopic env h s
  let searchTopic :=
    if 2 ≤ ts.2.failedAttempts ∧ ts.2.findings = [] then
      env.generateFallbackQuery env.question
    else ts.1
  let sB := searchRound h ts.2
  let topUrls := getUrlsToProcess sB.urlFrequencyMap sB.processedUrls
  if topUrls = [] then
    let sC := { sB with failedAttempts := sB.failedAttempts + 1 }
    if sC.maxFailedAttempts ≤ sC.failedAttempts then
      (sC, some .failedAttempts, true, false)
    else (sC, none, true, false)
  else
    let sC := { sB with processedUrls := sB.processedUrls ++ topUrls }
    let newFindings := (filterUrls topUrls).flatMap h.extractResult
    let sD := { sC with findings := sC.findings ++ newFindings }
    match h.analysis with
    | none =>
      let sE := { sD with failedAttempts := sD.failedAttempts + 1 }
      if sE.maxFailedAttempts ≤ sE.failedAttempts then
        (sE, some .failedAttempts, false, true)
      else (sE, none, false, true)
    | some analysis => analysisPhase analysis searchTopic sD

/-- Record of one executed hop, for stating the loop invariants. -/
structure HopRec where
  idx : Nat
  noNewUrls : Bool
  nullAnalysis : Bool
  failedBefore : Nat
  failedAfter : Nat
deriving DecidableEq

/-- The main research loop (route lines 713-925): the guard is
`currentDepth < maxDepth`, the time budget is checked at the top of each
iteration, and the depth is incremented before the hop body runs.  The fuel
argument mirrors `maxDepth - currentDepth` (every iteration increments the
depth by one, so both guards agree on every reachable state). -/
def loopGo (env : LoopEnv) : Nat → ResearchState → ResearchState × ExitReason × List HopRec
  | 0, s => (s, .depthLimit, [])
  | fuel + 1, s =>
    if s.currentDepth < maxDepth then
      if timeLimit ≤ (env.hops s.currentDepth).elapsed then
        (s, .timeLimitReached, [])
      else
        match hopBody env (env.hops s.currentDepth)
            { s with currentDepth := s.currentDepth + 1 } with
        | (s2, some r, noNew, nullA) =>
          (s2, r, [⟨s.currentDepth, noNew, nullA, s.failedAttempts,
                    s2.failedAttempts⟩])
        | (s2, none, noNew, nullA) =>
          ((loopGo env fuel s2).1, (loopGo env fuel s2).2.1,
           ⟨s.currentDepth, noNew, nullA, s.failedAttempts,
            s2.failedAttempts⟩ :: (loopGo env fuel s2).2.2)
    else (s, .depthLimit, [])

/-- The whole eval-mode research loop run from the initial state. -/
def runBrowseComp (env : LoopEnv) : ResearchState × ExitReason × List HopRec :=
  loopGo env maxDepth initialResearchState

def hopFlagged (r : HopRec) : Bool := r.noNewUrls || r.nullAnalysis

/-! JSON values and `JSON.parse`, for the tiered salvage parser
`parseAnalysisResponse` (route lines 130-189).  The embedded parser accepts
the JSON fragment with integer numbers and the single-character string
escapes; an input it rejects is simply not an accepted input.  Duplicate
object keys are collapsed on insertion (later value wins, position kept),
as `JSON.parse` does. -/

inductive JVal
  | jnull
  | jbool (b : Bool)
  | jnum (n : Int)
  | jstr (s : Str)
  | jarr (elems : List JVal)
  | jobj (fields : List (Str × JVal))

def jsonWsChar (c : Char) : Bool := c = ' ' || c = '\t' || c = '\n' || c = '\r'

def skipWs (s : Str) : Str := s.dropWhile jsonWsChar

def escPairs : List (Char × Char) :=
  [('"', '"'), ('\\', '\\'), ('/', '/'), ('n', '\n'),
   ('t', '\t'), ('r', '\r'), ('b', '\x08'), ('f', '\x0c')]

def escChar (e : Char) : Option Char :=
  (escPairs.find? (fun p => p.1 = e)).map Prod.snd

/-- String body after the opening quote; returns the content and the rest
after the closing quote. -/
def parseStringBody : Str → Option (Str × Str)
  | [] => none
  | c :: t =>
    if c = '"' then some ([], t)
    else if c = '\\' then
      match t with
      | [] => none
      | e :: t2 =>
        match escChar e with
        | some ec => (parseStringBody t2).map fun p => (ec :: p.1, p.2)
        | none => none
    else (parseStringBody t).map fun p => (c :: p.1, p.2)

def digitsToNat (ds : Str) : Nat :=
  ds.foldl (fun n c => n * 10 + (c.toNat - 48)) 0

/-- Integer literal at the head of the input; floats are out of the accepted
fragment. -/
def parseNum (s : Str) : Option (Int × Str) :=
  let neg := s.head? = some '-'
  let t := if neg then s.drop 1 else s
  let ds := t.takeWhile Char.isDigit
  if ds = [] then none
  else
    let rest := t.drop ds.length
    match rest.head? with
    | some c => if c = '.' || c = 'e' || c = 'E' then none else
        some ((if neg then -(digitsToNat ds : Int) else (digitsToNat ds : Int)), rest)
    | none => some ((if neg then -(digitsToNat ds : Int) else (digitsToNat ds : Int)), rest)

def addField (fields : List (Str × JVal)) (k : Str) (v : JVal) :
    List (Str × JVal) :=
  if fields.any (fun f => f.1 == k) then
    fields.map fun f => if f.1 == k then (f.1, v) else f
  else fields ++ [(k, v)]

mutual

def parseVal : Nat → Str → Option (JVal × Str)
  | 0, _ => none
  | fuel + 1, s =>
    match skipWs s with
    | [] => none
    | c :: t =>
      if c = '"' then (parseStringBody t).map fun p => (.jstr p.1, p.2)
      else if c = '\x7b' then parseFields fuel t []
      else if c = '[' then parseElems fuel t []
      else if ('t' :: "rue".data).isPrefixOf (c :: t) then
        some (.jbool true, (c :: t).drop 4)
      else if ('f' :: "alse".data).isPrefixOf (c :: t) then
        some (.jbool false, (c :: t).drop 5)
      else if ('n' :: "ull".data).isPrefixOf (c :: t) then
        some (.jnull, (c :: t).drop 4)
      else (parseNum (c :: t)).map fun p => (.jnum p.1, p.2)

def parseElems (fuel : Nat) (s : Str) (acc : List JVal) : Option (JVal × Str) :=
  match fuel with
  | 0 => none
  | fuel + 1 =>
    match skipWs s with
    | ']' :: t => if acc.isEmpty then some (.jarr [], t) else none
    | s2 =>
      match parseVal fuel s2 with
      | none => none
      | some (v, rest) =>
        match skipWs rest with
        | ',' :: t => parseElems fuel t (acc ++ [v])
        | ']' :: t => some (.jarr (acc ++ [v]), t)
        | _ => none

def parseFields (fuel : Nat) (s : Str) (acc : List (Str × JVal)) :
    Option (JVal × Str) :=
  match fuel with
  | 0 => none
  | fuel + 1 =>
    match skipWs s with
    | '\x7d' :: t => if acc.isEmpty then some (.jobj [], t) else none
    | '"' :: t =>
      match parseStringBody t with
      | none => none
      | some (key, rest) =>
        match skipWs rest with
        | ':' :: rest2 =>
          match parseVal fuel rest2 with
          | none => none
          | some (v, rest3) =>
            match skipWs rest3 with
            | ',' :: t2 => parseFields fuel t2 (addField acc key v)
            | '\x7d' :: t2 => some (.jobj (addField acc key v), t2)
            | _ => none
        | _ => none
    | _ => none

end

/-- Model of `JSON.parse`: a whole-string parse of the accepted fragment. -/
def jsonParse (text : Str) : Option JVal :=
  match parseVal (text.length + 1) text with
  | some (v, rest) => if skipWs rest = [] then some v else none
  | none => none

def keyAnalysis : Str := ('a' :: "nalysis".data)
def keySummary : Str := ('s' :: "ummary".data)
def keySubquestions : Str := ('s' :: "ubquestions".data)
def keyShouldContinue : Str := ('s' :: "houldContinue".data)

/-- JS property read `v.key`: `none` is `undefined`. -/
def getField (v : JVal) (key : Str) : Option JVal :=
  match v with
  | .jobj fields => (fields.find? fun f => f.1 == key).map fun f => f.2
  | _ => none

def jsTruthy : JVal → Bool
  | .jnull => false
  | .jbool b => b
  | .jnum n => n ≠ 0
  | .jstr s => s ≠ []
  | .jarr _ => true
  | .jobj _ => true

def fieldTruthy (v : JVal) (key : Str) : Bool :=
  match getField v key with
  | some x => jsTruthy x
  | none => false

def isStrVal : JVal → Bool
  | .jstr _ => true
  | _ => false

def setField (v : JVal) (key : Str) (newVal : JVal) : JVal :=
  match v with
  | .jobj fields => .jobj (fields.map fun f => if f.1 == key then (f.1, newVal) else f)
  | _ => v

inductive SalvageTier
  | direct
  | codeBlock
  | braceScan
  | textual
deriving DecidableEq

/-- Method 1 of `parseAnalysisResponse` (route lines 132-146) applied to the
directly parsed value; `none` models the TypeError thrown by a property
read on `null`, caught by the surrounding try. -/
def tier1 (parsed : JVal) : Option JVal :=
  match parsed with
  | .jnull => none
  | v =>
    if fieldTruthy v keyAnalysis then getField v keyAnalysis
    else if (getField v keySummary).isSome then some v
    else
      match getField v keySubquestions with
      | some (.jarr qs) => some (setField v keySubquestions (.jarr (qs.filter isStrVal)))
      | _ => some v

def backtick3 : Str := "```".data

def jsonWord : Str := ('j' :: "son".data)

/-- Lazy capture body of `({[\s\S]*?})\s*` + closing fence, entered just
after the opening brace: stop at the first closing brace that is followed
(after whitespace) by three backticks; returns the capture content together
with the rest after the closing fence. -/
def cbGo : Str → Option (Str × Str)
  | [] => none
  | c :: t =>
    if c = '\x7d' ∧ backtick3.isPrefixOf (skipWs t) then
      some (['\x7d'], (skipWs t).drop 3)
    else (cbGo t).map fun p => (c :: p.1, p.2)

/-- All captures of ```` /```(?:json)?\s*({[\s\S]*?})\s*```/g ```` (with
`withJson = true`) or of the variant without the `json` word, in match
order. -/
def cbScan (withJson : Bool) : Nat → Str → List Str
  | 0, _ => []
  | fuel + 1, s =>
    match s with
    | [] => []
    | _ :: t =>
      if backtick3.isPrefixOf s then
        let r0 := s.drop 3
        let r1 := if withJson && jsonWord.isPrefixOf r0 then r0.drop 4 else r0
        match skipWs r1 with
        | '\x7b' :: rest =>
          match cbGo rest with
          | some (inner, after) => ('\x7b' :: inner) :: cbScan withJson fuel after
          | none => cbScan withJson fuel t
        | _ => cbScan withJson fuel t
      else cbScan withJson fuel t

/-- Per-capture body of method 2 (route lines 154-169): the checks live
inside the try, so a throwing property read skips to the next capture. -/
def tryCaptureTier2 (cap : Str) : Option JVal :=
  match jsonParse cap with
  | some v =>
    match v with
    | .jnull => none
    | v =>
      if fieldTruthy v keyAnalysis then getField v keyAnalysis
      else if (getField v keySummary).isSome then some v
      else none
  | none => none

def tier2 (text : Str) : Option JVal :=
  ((cbScan true (text.length + 1) text ++ cbScan false (text.length + 1) text).filterMap
    tryCaptureTier2).head?

/-- Greedy match of `{[^{}]*(?:{[^{}]*}[^{}]*)*}` entered just after the
opening brace: alternate brace-free chunks with one-level nested groups;
the match fails on a second nesting level or an unclosed brace. -/
def bmGo : Nat → Str → Option (Str × Str)
  | 0, _ => none
  | fuel + 1, rem =>
    let chunk := rem.takeWhile fun c => c ≠ '\x7b' && c ≠ '\x7d'
    match rem.drop chunk.length with
    | '\x7d' :: rest => some (chunk ++ ['\x7d'], rest)
    | '\x7b' :: rest =>
      let inner := rest.takeWhile fun c => c ≠ '\x7b' && c ≠ '\x7d'
      match rest.drop inner.length with
      | '\x7d' :: rest2 =>
        (bmGo fuel rest2).map fun p =>
          (chunk ++ '\x7b' :: (inner ++ '\x7d' :: p.1), p.2)
      | _ => none
    | _ => none

/-- All matches of `/{[^{}]*(?:{[^{}]*}[^{}]*)*}/g` in order. -/
def braceScanAll : Nat → Str → List Str
  | 0, _ => []
  | fuel + 1, s =>
    match s with
    | [] => []
    | c :: t =>
      if c = '\x7b' then
        match bmGo (t.length + 1) t with
        | some (content, rest) => ('\x7b' :: content) :: braceScanAll fuel rest
        | none => braceScanAll fuel t
      else braceScanAll fuel t

/-- Per-candidate body of method 3 (route lines 172-187). -/
def tryCaptureTier3 (cap : Str) : Option JVal :=
  match jsonParse cap with
  | some v =>
    match v with
    | .jnull => none
    | v =>
      if fieldTruthy v keyAnalysis then getField v keyAnalysis
      else if (getField v keySummary).isSome || (getField v keyShouldContinue).isSome then
        some v
      else none
  | none => none

def tier3 (text : Str) : Option JVal :=
  ((braceScanAll (text.length + 1) text).filterMap tryCaptureTier3).head?

/-- Textual salvage `parseAnalysisFromText` (route lines 242-273); the
time remaining is the fractional minute count passed by the caller. -/
def parseAnalysisFromText (fallbackQuery : Str → Str) (text : Str)
    (findingsCount : Nat) (timeRemainingMinutes : ℚ) (question : Str) : JVal :=
  let lowerText := lowerStr text
  let shouldContinue :=
    decide (findingsCount < 3) || decide ((3 : ℚ) / 2 < timeRemainingMinutes) ||
    containsSub ("continue".data) lowerText ||
    containsSub ("more search".data) lowerText ||
    containsSub ("insufficient".data) lowerText
  let confidence :=
    if containsSub ("high confidence".data) lowerText ||
        containsSub ("confident".data) lowerText then ('h' :: "igh".data)
    else if containsSub ("medium".data) lowerText ||
        containsSub ("moderate".data) lowerText then ('m' :: "edium".data)
    else ('l' :: "ow".data)
  let hasAnswer :=
    containsSub ("found".data) lowerText ||
    containsSub ("answer".data) lowerText ||
    containsSub ("identified".data) lowerText ||
    confidence == ('h' :: "igh".data)
  .jobj
    [(keySummary, .jstr (text.take 200)),
     (('h' :: "asAnswer".data), .jbool hasAnswer),
     (('c' :: "onfidence".data), .jstr confidence),
     (('g' :: "aps".data), .jarr [.jstr ('M' :: "ore information needed".data)]),
     (keyShouldContinue, .jbool shouldContinue),
     (('n' :: "extSearchTopic".data), .jstr (fallbackQuery question))]

/-- Tiered salvage `parseAnalysisResponse` (route lines 130-189), returning
the tier that settled together with the value. -/
def parseAnalysisResponse (fallbackQuery : Str → Str) (responseText : Str)
    (findingsCount : Nat) (timeRemainingMinutes : ℚ) (question : Str) :
    SalvageTier × JVal :=
  let direct :=
    match jsonParse responseText with
    | some parsed => tier1 parsed
    | none => none
  match direct with
  | some r => (.direct, r)
  | none =>
    match tier2 responseText with
    | some r => (.codeBlock, r)
    | none =>
      match tier3 responseText with
      | some r => (.braceScan, r)
      | none =>
        (.textual,
         parseAnalysisFromText fallbackQuery responseText findingsCount
           timeRemainingMinutes question)

/-! Generic lemmas about the embedded string operations. -/

theorem jsSpace_of_digit (c : Char) (h : c.isDigit = true) : jsSpace c = false := by
  cases hj : jsSpace c with
  | false => rfl
  | true =>
    exfalso
    unfold jsSpace at hj
    simp only [Bool.or_eq_true, decide_eq_true_eq] at hj
    rcases hj with ((((hj | hj) | hj) | hj) | hj) | hj <;>
      (subst hj; exact absurd h (by decide))

theorem toLower_of_digit (c : Char) (h : c.isDigit = true) : c.toLower = c := by
  simp only [Char.isDigit, ge_iff_le, Bool.and_eq_true, decide_eq_true_eq] at h
  unfold Char.toLower
  have h2 : c.toNat ≤ 57 := h.2
  rw [if_neg (by omega)]

theorem percent_not_space : jsSpace '%' = false := by decide

theorem splitOnChar_not_mem (sep : Char) (l : Str) (h : sep ∉ l) :
    splitOnChar sep l = [l] := by
  induction l with
  | nil => rfl
  | cons c t ih =>
    have hc : ¬(c = sep) := fun he => h (he ▸ List.mem_cons_self c t)
    have ht : sep ∉ t := fun hm => h (List.mem_cons_of_mem c hm)
    simp only [splitOnChar, if_neg hc, ih ht]

theorem splitOnChar_append (sep : Char) (a b : Str) (h : sep ∉ a) :
    splitOnChar sep (a ++ sep :: b) = a :: splitOnChar sep b := by
  induction a with
  | nil => simp [splitOnChar]
  | cons c t ih =>
    have hc : ¬(c = sep) := fun he => h (he ▸ List.mem_cons_self c t)
    have ht : sep ∉ t := fun hm => h (List.mem_cons_of_mem c hm)
    simp only [List.cons_append, splitOnChar, if_neg hc, List.append_eq, ih ht]

theorem mem_of_dropLabelCI (pat : Str) (s r : Str) (hr : dropLabelCI pat s = some r) :
    ∀ c ∈ r, c ∈ s := by
  induction s with
  | nil => simp [dropLabelCI] at hr
  | cons a t ih =>
    by_cases hp : pat.isPrefixOf (lowerStr (a :: t)) = true
    · simp only [dropLabelCI, if_pos hp, Option.some.injEq] at hr
      intro c hc
      exact List.mem_of_mem_drop (hr ▸ hc)
    · simp only [dropLabelCI, if_neg hp] at hr
      intro c hc
      exact List.mem_cons_of_mem a (ih hr c hc)

theorem mem_of_captureUntil (stops : List Str) (s : Str) :
    ∀ c ∈ captureUntil stops s, c ∈ s := by
  induction s with
  | nil => simp [captureUntil]
  | cons a t ih =>
    intro c hc
    by_cases hst : (stops.any fun p => p.isPrefixOf (lowerStr (a :: t))) = true
    · simp [captureUntil, hst] at hc
    · simp only [captureUntil, if_neg hst, List.mem_cons] at hc
      rcases hc with hc | hc
      · exact hc ▸ List.mem_cons_self a t
      · exact List.mem_cons_of_mem a (ih c hc)

theorem mem_of_dropWhile (p : Char → Bool) (l : Str) :
    ∀ c ∈ l.dropWhile p, c ∈ l :=
  fun _ hc => (List.dropWhile_sublist p).subset hc

theorem mem_of_trimL (l : Str) : ∀ c ∈ trimL l, c ∈ l :=
  mem_of_dropWhile jsSpace l

theorem mem_of_trimR (l : Str) : ∀ c ∈ trimR l, c ∈ l := by
  intro c hc
  unfold trimR at hc
  rw [List.mem_reverse] at hc
  have := mem_of_trimL l.reverse c hc
  rwa [List.mem_reverse] at this

theorem mem_of_trimStr (l : Str) : ∀ c ∈ trimStr l, c ∈ l :=
  fun c hc => mem_of_trimL l c (mem_of_trimR (trimL l) c hc)

theorem trimL_cons_of (c : Char) (l : Str) (h : jsSpace c = false) :
    trimL (c :: l) = c :: l := by
  simp [trimL, List.dropWhile_cons, h]

theorem trimR_eq_self_of (l : Str)
    (h : ∀ c, l.getLast? = some c → jsSpace c = false) : trimR l = l := by
  unfold trimR trimL
  cases hrev : l.reverse with
  | nil =>
    have : l = [] := by simpa using congrArg List.reverse hrev
    simp [this]
  | cons b m =>
    have hb : l.getLast? = some b := by
      rw [List.getLast?_eq_head?_reverse, hrev]; rfl
    rw [List.dropWhile_cons, h b hb]
    simp only [Bool.false_eq_true, if_false]
    rw [← hrev, List.reverse_reverse]

theorem trimL_eq_self_of (l : Str)
    (h : ∀ c, l.head? = some c → jsSpace c = false) : trimL l = l := by
  cases l with
  | nil => rfl
  | cons a t => exact trimL_cons_of a t (h a rfl)

theorem trimStr_eq_self_of (l : Str)
    (h1 : ∀ c, l.head? = some c → jsSpace c = false)
    (h2 : ∀ c, l.getLast? = some c → jsSpace c = false) : trimStr l = l := by
  unfold trimStr
  rw [trimL_eq_self_of l h1, trimR_eq_self_of l h2]

theorem head?_dropWhile_false (p : Char → Bool) (l : Str) :
    ∀ c, (l.dropWhile p).head? = some c → p c = false := by
  intro c hc
  have := List.head?_dropWhile_not p l
  rw [hc] at this
  exact this

theorem trimR_isPrefix (l : Str) : trimR l <+: l := by
  unfold trimR trimL
  conv_rhs => rw [← List.reverse_reverse l]
  exact List.reverse_prefix.mpr (List.dropWhile_suffix jsSpace)

theorem head?_of_prefix (a b : Str) (h : a <+: b) (c : Char)
    (hc : a.head? = some c) : b.head? = some c := by
  obtain ⟨t, rfl⟩ := h
  cases a with
  | nil => simp at hc
  | cons x xs => simpa using hc

theorem trimStr_head_not_space (l : Str) :
    ∀ c, (trimStr l).head? = some c → jsSpace c = false := by
  intro c hc
  unfold trimStr at hc
  have hhead : (trimL l).head? = some c :=
    head?_of_prefix (trimR (trimL l)) (trimL l) (trimR_isPrefix (trimL l)) c hc
  exact head?_dropWhile_false jsSpace l c hhead

theorem trimStr_last_not_space (l : Str) :
    ∀ c, (trimStr l).getLast? = some c → jsSpace c = false := by
  intro c hc
  unfold trimStr trimR at hc
  rw [List.getLast?_eq_head?_reverse, List.reverse_reverse] at hc
  exact head?_dropWhile_false jsSpace (trimL l).reverse c hc

theorem trimStr_idem (l : Str) : trimStr (trimStr l) = trimStr l :=
  trimStr_eq_self_of (trimStr l) (trimStr_head_not_space l) (trimStr_last_not_space l)

theorem lcStartsWith_append_left (pat a b : Str) (h : lcStartsWith pat a = true) :
    lcStartsWith pat (a ++ b) = true := by
  unfold lcStartsWith at h ⊢
  rw [List.isPrefixOf_iff_prefix] at h ⊢
  unfold lowerStr
  rw [List.map_append]
  exact h.trans (List.prefix_append _ _)

theorem lcStartsWith_false_of_digit_head (pat : Str) (p : Char) (pt : Str)
    (hpat : pat = p :: pt) (hp : p.isDigit = false) (d : Char) (s : Str)
    (hd : d.isDigit = true) : lcStartsWith pat (d :: s) = false := by
  subst hpat
  unfold lcStartsWith lowerStr
  simp only [List.map_cons, List.isPrefixOf]
  rw [toLower_of_digit d hd]
  have : (p == d) = false := by
    cases hpd : p == d with
    | false => rfl
    | true =>
      have : p = d := by simpa using hpd
      rw [this] at hp
      rw [hd] at hp
      cases hp
  simp [this]

/-! Claim theorems for the URL filter. -/

/-- C10: `filterUrls` returns a subsequence of its input: every kept URL
occurs in the input, the relative order is preserved (sublist), and no URL
is kept more often than it occurs. -/
theorem filterUrls_subsequence (urls : List Str) :
    (filterUrls urls).Sublist urls ∧
    (∀ u ∈ filterUrls urls, u ∈ urls) ∧
    (∀ u, (filterUrls urls).count u ≤ urls.count u) := by
  have hs : (filterUrls urls).Sublist urls := List.filter_sublist urls
  exact ⟨hs, fun u hu => hs.subset hu, fun u => hs.count_le u⟩

/-- Witness for C10 at a concrete input. -/
theorem filterUrls_subsequence_witness :
    (filterUrls ["https://example.com/ok".data]).Sublist
      ["https://example.com/ok".data] :=
  (filterUrls_subsequence ["https://example.com/ok".data]).1

/-- C7 counterexample input: the path is `/a`, free of the document
extensions, but the whole url string ends in `.pdf`. -/
def c7url : Str := "https://example.com/a?q=.pdf".data

/-- C7 as stated is false: `claimKeepUrl` (the claim's path-based predicate)
keeps `c7url`, yet `filterUrls` rejects it, because the source tests the
extension regex against the whole url string. -/
theorem filterUrls_path_counterexample :
    claimKeepUrl c7url = true ∧ filterUrls [c7url] = [] := by decide

/-- C7 amended: `filterUrls` keeps exactly the urls that parse, whose host
contains no blocked domain, and whose WHOLE url string does not end in
`.pdf`, `.doc` or `.docx` (case-insensitively). -/
theorem filterUrls_amended (urls : List Str) :
    filterUrls urls = urls.filter specKeepUrl := by
  unfold filterUrls
  refine List.filter_congr ?_
  intro u _
  unfold specKeepUrl
  cases hp : parseUrlHost u with
  | none => simp [hp]
  | some domain =>
    by_cases he : endsWithExtCI u = true
    · simp [hp, he]
    · simp only [Bool.not_eq_true] at he
      simp [hp, he]

/-- Witness for C7 at a concrete input list. -/
theorem filterUrls_amended_witness :
    filterUrls [c7url, "https://example.com/ok".data] =
      [c7url, "https://example.com/ok".data].filter specKeepUrl :=
  filterUrls_amended [c7url, "https://example.com/ok".data]

/-! Claim theorems for `extractWithRetry`. -/

/-- C9: the extractor is total at its interface: whatever the oracle does,
every finding it returns carries the input url as its source, and when every
attempt yields nothing (thrown extract, or failed extract whose scrape
fallback also fails) the result is the empty list. -/
theorem normalizePayload_source (data : ExtractPayload) (url : Str) :
    ∀ f ∈ normalizePayload data url, f.source = url := by
  intro f hf
  cases data with
  | parr items =>
    simp only [normalizePayload, List.mem_map] at hf
    obtain ⟨it, _, rfl⟩ := hf
    rfl
  | pstr s =>
    simp only [normalizePayload, List.mem_singleton] at hf
    subst hf; rfl
  | pother ser =>
    simp only [normalizePayload, List.mem_singleton] at hf
    subst hf; rfl
  | pnull =>
    simp only [normalizePayload, List.mem_singleton] at hf
    subst hf; rfl

theorem extractWithRetry_total (url : Str) (attempts : List AttemptBehavior) :
    (∀ f ∈ extractWithRetry url attempts, f.source = url) ∧
    ((∀ a ∈ attempts, attemptNoYield a = true) → extractWithRetry url attempts = []) := by
  induction attempts with
  | nil => exact ⟨by simp [extractWithRetry], fun _ => rfl⟩
  | cons a rest ih =>
    constructor
    · intro f hf
      rw [extractWithRetry] at hf
      split at hf
      · exact ih.1 f hf
      · split at hf
        · exact normalizePayload_source _ url f hf
        · split at hf
          · split at hf
            · exact ih.1 f hf
            · split at hf
              · simp only [List.mem_singleton] at hf
                subst hf; rfl
              · exact ih.1 f hf
          · exact ih.1 f hf
    · intro hall
      have ha : attemptNoYield a = true := hall a (List.mem_cons_self a rest)
      have hrest : extractWithRetry url rest = [] :=
        ih.2 fun b hb => hall b (List.mem_cons_of_mem a hb)
      rw [extractWithRetry]
      unfold attemptNoYield at ha
      split
      · exact hrest
      · rename_i success data hex
        rw [hex] at ha
        simp only [Bool.and_eq_true, Bool.not_eq_true'] at ha
        rw [if_neg (by simp [ha.1])]
        split
        · split
          · exact hrest
          · rename_i scrapeSuccess markdown hscr
            rw [hscr] at ha
            have h2 := ha.2
            simp only [Bool.not_eq_true'] at h2
            rw [h2]
            simp only [Bool.false_eq_true, if_false]
            exact hrest
        · exact hrest

/-- Witness for C9 at a concrete input. -/
theorem extractWithRetry_total_witness :
    (∀ f ∈ extractWithRetry ("https://example.com/page".data)
        [⟨none, none⟩, ⟨some (false, .pnull), some (false, none)⟩],
      f.source = ("https://example.com/page".data)) ∧
    extractWithRetry ("https://example.com/page".data)
        [⟨none, none⟩, ⟨some (false, .pnull), some (false, none)⟩] = [] := by
  have h := extractWithRetry_total ("https://example.com/page".data)
    [⟨none, none⟩, ⟨some (false, .pnull), some (false, none)⟩]
  exact ⟨h.1, h.2 (by decide)⟩

def c3url : Str := "https://example.com/page".data

/-- C3 failing payload: a successful extract whose serialization contains
the sentinel substring. -/
def c3payload : ExtractPayload :=
  .pother ('\x7b' :: ("\"names\":[]".data ++ ['\x7d']))

def c3markdown : Str := "MARKDOWN CONTENT OF THE PAGE".data

/-- C3: the sentinel check is dead code.  On a SUCCESSFUL extract whose
payload serializes to the `"names":[]` sentinel the function returns the
raw payload at once and never attempts the scrape fallback (first
conjunct), although the spec says the sentinel triggers the fallback; the
fallback fires only when the call reports failure (third conjunct). -/
theorem extract_sentinel_no_fallback :
    extractWithRetry c3url
        [⟨some (true, c3payload), some (true, some c3markdown)⟩] =
      [⟨'\x7b' :: ("\"names\":[]".data ++ ['\x7d']), c3url⟩] ∧
    containsSub sentinelNames (stringifyPayload c3payload) = true ∧
    extractWithRetry c3url
        [⟨some (false, c3payload), some (true, some c3markdown)⟩] =
      [⟨c3markdown.take 2000, c3url⟩] := by decide

/-! Claim theorems for the URL frequency ranker. -/

theorem insertStable_perm (x : UrlFreqEntry) (l : List UrlFreqEntry) :
    (insertStable x l).Perm (x :: l) := by
  induction l with
  | nil => exact List.Perm.refl _
  | cons e t ih =>
    by_cases h : x.frequency ≤ e.frequency
    · simp only [insertStable, if_pos h]
      exact (ih.cons e).trans (List.Perm.swap x e t)
    · simp only [insertStable, if_neg h]
      exact List.Perm.refl _

theorem jsSort_step (l : List UrlFreqEntry) (x : UrlFreqEntry) :
    jsSortByFreqDesc (l ++ [x]) = insertStable x (jsSortByFreqDesc l) := by
  simp [jsSortByFreqDesc, List.foldl_append]

theorem jsSort_perm (l : List UrlFreqEntry) : (jsSortByFreqDesc l).Perm l := by
  induction l using List.reverseRecOn with
  | nil => exact List.Perm.refl _
  | append_singleton l x ih =>
    rw [jsSort_step]
    exact ((insertStable_perm x _).trans (ih.cons x)).trans
      (List.perm_append_singleton x l).symm

theorem insertStable_sorted (x : UrlFreqEntry) (l : List UrlFreqEntry)
    (h : l.Pairwise fun a b => b.frequency ≤ a.frequency) :
    (insertStable x l).Pairwise fun a b => b.frequency ≤ a.frequency := by
  induction l with
  | nil => simp [insertStable]
  | cons e t ih =>
    rcases List.pairwise_cons.mp h with ⟨he, ht⟩
    by_cases hx : x.frequency ≤ e.frequency
    · simp only [insertStable, if_pos hx]
      refine List.pairwise_cons.mpr ⟨?_, ih ht⟩
      intro b hb
      rcases List.mem_cons.mp ((insertStable_perm x t).mem_iff.mp hb) with rfl | hbt
      · exact hx
      · exact he b hbt
    · simp only [insertStable, if_neg hx]
      have hlt : e.frequency < x.frequency := Nat.lt_of_not_le hx
      refine List.pairwise_cons.mpr ⟨?_, h⟩
      intro b hb
      rcases List.mem_cons.mp hb with rfl | hbt
      · exact Nat.le_of_lt hlt
      · exact Nat.le_trans (he b hbt) (Nat.le_of_lt hlt)

theorem jsSort_sorted (l : List UrlFreqEntry) :
    (jsSortByFreqDesc l).Pairwise fun a b => b.frequency ≤ a.frequency := by
  induction l using List.reverseRecOn with
  | nil => simp [jsSortByFreqDesc]
  | append_singleton l x ih =>
    rw [jsSort_step]
    exact insertStable_sorted x _ ih

theorem insertStable_filter (f : Nat) (x : UrlFreqEntry) (l : List UrlFreqEntry)
    (h : l.Pairwise fun a b => b.frequency ≤ a.frequency) :
    (insertStable x l).filter (fun en => en.frequency == f) =
      (if (x.frequency == f) = true then
        (l.filter fun en => en.frequency == f) ++ [x]
      else l.filter fun en => en.frequency == f) := by
  induction l with
  | nil =>
    by_cases hf : (x.frequency == f) = true <;>
      simp [insertStable, List.filter, hf]
  | cons e t ih =>
    rcases List.pairwise_cons.mp h with ⟨he, ht⟩
    by_cases hx : x.frequency ≤ e.frequency
    · simp only [insertStable, if_pos hx, List.filter_cons]
      rw [ih ht]
      by_cases hef : (e.frequency == f) = true <;>
        by_cases hxf : (x.frequency == f) = true <;>
          simp [hef, hxf]
    · have hlt : e.frequency < x.frequency := Nat.lt_of_not_le hx
      simp only [insertStable, if_neg hx]
      by_cases hxf : (x.frequency == f) = true
      · have hfx : x.frequency = f := by simpa using hxf
        have hnil : (e :: t).filter (fun en => en.frequency == f) = [] := by
          rw [List.filter_eq_nil_iff]
          intro b hb
          have hble : b.frequency ≤ e.frequency := by
            rcases List.mem_cons.mp hb with rfl | hbt
            · exact Nat.le_refl _
            · exact he b hbt
          simp only [beq_iff_eq]
          omega
        rw [List.filter_cons, if_pos hxf, hnil, if_pos hxf]
        rfl
      · rw [List.filter_cons, if_neg hxf, if_neg hxf]

theorem jsSort_stable (l : List UrlFreqEntry) (f : Nat) :
    (jsSortByFreqDesc l).filter (fun en => en.frequency == f) =
      l.filter fun en => en.frequency == f := by
  induction l using List.reverseRecOn with
  | nil => rfl
  | append_singleton l x ih =>
    rw [jsSort_step, insertStable_filter f x _ (jsSort_sorted l), ih,
      List.filter_append]
    by_cases hxf : (x.frequency == f) = true <;> simp [hxf, List.filter]

def scenarioHitA : SearchHit := ⟨"https://a.example/1".data, "A".data⟩
def scenarioHitB : SearchHit := ⟨"https://b.example/1".data, "B".data⟩
def scenarioHitC : SearchHit := ⟨"https://c.example/1".data, "C".data⟩
def scenarioHitD : SearchHit := ⟨"https://d.example/1".data, "D".data⟩

/-- Frequency map after the claim's two search responses `[A,B,C]` and
`[B,C,D]`, built by the loop's own update code. -/
def scenarioMap : List UrlFreqEntry :=
  processSearchResponse
    (processSearchResponse [] [scenarioHitA, scenarioHitB, scenarioHitC])
    [scenarioHitB, scenarioHitC, scenarioHitD]

/-- C5: `getUrlsToProcess` takes the first three URLs of the frequency map
sorted by frequency descending (a stable sort: a permutation, descending,
preserving the insertion order within every frequency class) after dropping
processed URLs; on the claim's scenario of responses `[A,B,C]` and `[B,C,D]`
with nothing processed yet, it returns `[B, C, A]` (one of the two orders
the claim allows). -/
theorem getUrlsToProcess_spec (m : List UrlFreqEntry) (p : List Str) :
    getUrlsToProcess m p =
      ((((jsSortByFreqDesc m).map fun item => item.url).filter
        fun url => !(p.contains url)).take 3) ∧
    (jsSortByFreqDesc m).Perm m ∧
    (jsSortByFreqDesc m).Pairwise (fun a b => b.frequency ≤ a.frequency) ∧
    (∀ f, (jsSortByFreqDesc m).filter (fun en => en.frequency == f) =
      m.filter fun en => en.frequency == f) ∧
    (getUrlsToProcess scenarioMap [] =
        [scenarioHitB.url, scenarioHitC.url, scenarioHitA.url] ∨
     getUrlsToProcess scenarioMap [] =
        [scenarioHitB.url, scenarioHitC.url, scenarioHitD.url]) :=
  ⟨rfl, jsSort_perm m, jsSort_sorted m, fun f => jsSort_stable m f,
   Or.inl (by decide)⟩

/-- Witness for C5 at the scenario input. -/
theorem getUrlsToProcess_spec_witness :
    getUrlsToProcess scenarioMap [] =
        [scenarioHitB.url, scenarioHitC.url, scenarioHitA.url] ∨
    getUrlsToProcess scenarioMap [] =
        [scenarioHitB.url, scenarioHitC.url, scenarioHitD.url] :=
  (getUrlsToProcess_spec scenarioMap []).2.2.2.2

/-! Claim theorems for the tiered JSON salvage. -/

/-- Direct-parse tier rules as amended claim C6 words them: return the
`analysis` value when it is present AND truthy, else the parsed value when
it has a `summary` key, else (when `subquestions` is an array) the object
with `subquestions` filtered to strings, else the parsed value unchanged. -/
def tier1Rules (v : JVal) : JVal :=
  if fieldTruthy v keyAnalysis then (getField v keyAnalysis).getD v
  else if (getField v keySummary).isSome then v
  else
    match getField v keySubquestions with
    | some (.jarr qs) => setField v keySubquestions (.jarr (qs.filter isStrVal))
    | _ => v

theorem tier1_eq_rules (v : JVal) (hnull : v ≠ JVal.jnull) :
    tier1 v = some (tier1Rules v) := by
  cases v with
  | jnull => exact absurd rfl hnull
  | jbool b => rfl
  | jnum n => rfl
  | jstr s => rfl
  | jarr xs => rfl
  | jobj fields =>
    show (if fieldTruthy (JVal.jobj fields) keyAnalysis = true then
        getField (JVal.jobj fields) keyAnalysis
      else if (getField (JVal.jobj fields) keySummary).isSome = true then
        some (JVal.jobj fields)
      else
        match getField (JVal.jobj fields) keySubquestions with
        | some (JVal.jarr qs) =>
          some (setField (JVal.jobj fields) keySubquestions
            (JVal.jarr (qs.filter isStrVal)))
        | _ => some (JVal.jobj fields)) = some (tier1Rules (JVal.jobj fields))
    unfold tier1Rules
    by_cases ha : fieldTruthy (JVal.jobj fields) keyAnalysis = true
    · rw [if_pos ha, if_pos ha]
      unfold fieldTruthy at ha
      cases hg : getField (JVal.jobj fields) keyAnalysis with
      | none => rw [hg] at ha; cases ha
      | some x => rfl
    · rw [if_neg ha, if_neg ha]
      by_cases hs : (getField (JVal.jobj fields) keySummary).isSome = true
      · rw [if_pos hs, if_pos hs]
      · rw [if_neg hs, if_neg hs]
        cases hq : getField (JVal.jobj fields) keySubquestions with
        | none => rfl
        | some x => cases x <;> rfl

/-- C6 amended: on every input accepted by direct JSON parsing whose value
is not `null`, the tiered salvage settles in the direct tier with the
tier-one rules; the parse result `null` instead throws inside tier one and
falls through to the later tiers. -/
theorem parseAnalysisResponse_direct (fallbackQuery : Str → Str)
    (responseText : Str) (findingsCount : Nat) (timeRemainingMinutes : ℚ)
    (question : Str) (v : JVal) (hparse : jsonParse responseText = some v)
    (hnull : v ≠ JVal.jnull) :
    parseAnalysisResponse fallbackQuery responseText findingsCount
        timeRemainingMinutes question = (SalvageTier.direct, tier1Rules v) := by
  unfold parseAnalysisResponse
  rw [hparse]
  show (match tier1 v with
    | some r => (SalvageTier.direct, r)
    | none =>
      match tier2 responseText with
      | some r => (SalvageTier.codeBlock, r)
      | none =>
        match tier3 responseText with
        | some r => (SalvageTier.braceScan, r)
        | none =>
          (SalvageTier.textual,
            parseAnalysisFromText fallbackQuery responseText findingsCount
              timeRemainingMinutes question)) = (SalvageTier.direct, tier1Rules v)
  rw [tier1_eq_rules v hnull]

def cxFallbackQ : Str → Str := fun _ => []

def analysisNullText : Str := ('\x7b' :: ("\"analysis\":null".data ++ ['\x7d']))

/-- C6 as stated is false at two inputs: the string `null` is accepted by
direct JSON parsing, yet the salvage falls through to the TEXTUAL tier
(property access on `null` throws inside tier one); and on an object whose
`analysis` key is present but `null` the salvage returns the whole object
rather than the value of the `analysis` key. -/
theorem parseAnalysisResponse_counterexample :
    jsonParse ("null".data) = some JVal.jnull ∧
    (parseAnalysisResponse cxFallbackQ ("null".data) 0 0 ("q".data)).1 =
      SalvageTier.textual ∧
    jsonParse analysisNullText = some (JVal.jobj [(keyAnalysis, JVal.jnull)]) ∧
    (parseAnalysisResponse cxFallbackQ analysisNullText 0 0 ("q".data)).2 =
      JVal.jobj [(keyAnalysis, JVal.jnull)] :=
  ⟨rfl, rfl, rfl, rfl⟩

def summaryOkText : Str := ('\x7b' :: ("\"summary\":\"ok\"".data ++ ['\x7d']))

/-- Witness for C6 at a concrete accepted input. -/
theorem parseAnalysisResponse_direct_witness :
    parseAnalysisResponse cxFallbackQ summaryOkText 0 0 ("q".data) =
      (SalvageTier.direct,
       tier1Rules (JVal.jobj [(keySummary, JVal.jstr ("ok".data))])) :=
  parseAnalysisResponse_direct cxFallbackQ summaryOkText 0 0 ("q".data)
    (JVal.jobj [(keySummary, JVal.jstr ("ok".data))]) rfl
    (fun h => JVal.noConfusion h)

/-! Invariants of the research loop (claims C2 and C8). -/

theorem selectTopic_currentDepth (env : LoopEnv) (h : HopEnv) (s : ResearchState) :
    (selectTopic env h s).2.currentDepth = s.currentDepth := by
  unfold selectTopic
  repeat' split
  all_goals try rfl
  all_goals dsimp only
  all_goals repeat' split
  all_goals rfl

theorem selectTopic_failedAttempts (env : LoopEnv) (h : HopEnv) (s : ResearchState) :
    (selectTopic env h s).2.failedAttempts = s.failedAttempts := by
  unfold selectTopic
  repeat' split
  all_goals try rfl
  all_goals dsimp only
  all_goals repeat' split
  all_goals rfl

theorem selectTopic_maxFailedAttempts (env : LoopEnv) (h : HopEnv) (s : ResearchState) :
    (selectTopic env h s).2.maxFailedAttempts = s.maxFailedAttempts := by
  unfold selectTopic
  repeat' split
  all_goals try rfl
  all_goals dsimp only
  all_goals repeat' split
  all_goals rfl

theorem searchRound_currentDepth (h : HopEnv) (s : ResearchState) :
    (searchRound h s).currentDepth = s.currentDepth := by
  unfold searchRound
  generalize List.range 5 = l
  induction l generalizing s with
  | nil => rfl
  | cons i t ih =>
    simp only [List.foldl_cons]
    split <;> exact ih _

theorem searchRound_failedAttempts (h : HopEnv) (s : ResearchState) :
    (searchRound h s).failedAttempts = s.failedAttempts := by
  unfold searchRound
  generalize List.range 5 = l
  induction l generalizing s with
  | nil => rfl
  | cons i t ih =>
    simp only [List.foldl_cons]
    split <;> exact ih _

theorem searchRound_maxFailedAttempts (h : HopEnv) (s : ResearchState) :
    (searchRound h s).maxFailedAttempts = s.maxFailedAttempts := by
  unfold searchRound
  generalize List.range 5 = l
  induction l generalizing s with
  | nil => rfl
  | cons i t ih =>
    simp only [List.foldl_cons]
    split <;> exact ih _

theorem applySubAnswer_currentDepth (a : AnalysisResult) (t : Str)
    (d : ResearchState) : (applySubAnswer a t d).currentDepth = d.currentDepth := by
  unfold applySubAnswer
  repeat' split
  all_goals rfl

theorem applySubAnswer_failedAttempts (a : AnalysisResult) (t : Str)
    (d : ResearchState) :
    (applySubAnswer a t d).failedAttempts = d.failedAttempts := by
  unfold applySubAnswer
  repeat' split
  all_goals rfl

theorem applySubAnswer_maxFailedAttempts (a : AnalysisResult) (t : Str)
    (d : ResearchState) :
    (applySubAnswer a t d).maxFailedAttempts = d.maxFailedAttempts := by
  unfold applySubAnswer
  repeat' split
  all_goals rfl

theorem applySubquestions_currentDepth (a : AnalysisResult) (d : ResearchState) :
    (applySubquestions a d).currentDepth = d.currentDepth := by
  unfold applySubquestions
  repeat' split
  all_goals rfl

theorem applySubquestions_failedAttempts (a : AnalysisResult) (d : ResearchState) :
    (applySubquestions a d).failedAttempts = d.failedAttempts := by
  unfold applySubquestions
  repeat' split
  all_goals rfl

theorem applySubquestions_maxFailedAttempts (a : AnalysisResult) (d : ResearchState) :
    (applySubquestions a d).maxFailedAttempts = d.maxFailedAttempts := by
  unfold applySubquestions
  repeat' split
  all_goals rfl

theorem analysisPhase_currentDepth (a : AnalysisResult) (t : Str)
    (d : ResearchState) :
    (analysisPhase a t d).1.currentDepth = d.currentDepth := by
  unfold analysisPhase
  dsimp only
  repeat' split
  all_goals
    simp [applySubquestions_currentDepth, applySubAnswer_currentDepth]

theorem analysisPhase_failedAttempts (a : AnalysisResult) (t : Str)
    (d : ResearchState) :
    (analysisPhase a t d).1.failedAttempts = d.failedAttempts := by
  unfold analysisPhase
  dsimp only
  repeat' split
  all_goals
    simp [applySubquestions_failedAttempts, applySubAnswer_failedAttempts]

theorem analysisPhase_maxFailedAttempts (a : AnalysisResult) (t : Str)
    (d : ResearchState) :
    (analysisPhase a t d).1.maxFailedAttempts = d.maxFailedAttempts := by
  unfold analysisPhase
  dsimp only
  repeat' split
  all_goals
    simp [applySubquestions_maxFailedAttempts, applySubAnswer_maxFailedAttempts]

theorem analysisPhase_not_failed (a : AnalysisResult) (t : Str)
    (d : ResearchState) :
    (analysisPhase a t d).2.1 = some ExitReason.failedAttempts ↔ False := by
  unfold analysisPhase
  dsimp only
  repeat' split
  all_goals simp

theorem analysisPhase_not_time (a : AnalysisResult) (t : Str)
    (d : ResearchState) :
    (analysisPhase a t d).2.1 = some ExitReason.timeLimitReached ↔ False := by
  unfold analysisPhase
  dsimp only
  repeat' split
  all_goals simp

theorem analysisPhase_not_depth (a : AnalysisResult) (t : Str)
    (d : ResearchState) :
    (analysisPhase a t d).2.1 = some ExitReason.depthLimit ↔ False := by
  unfold analysisPhase
  dsimp only
  repeat' split
  all_goals simp

theorem analysisPhase_noNew (a : AnalysisResult) (t : Str) (d : ResearchState) :
    (analysisPhase a t d).2.2.1 = false := by
  unfold analysisPhase
  dsimp only
  repeat' split
  all_goals simp

theorem analysisPhase_nullA (a : AnalysisResult) (t : Str) (d : ResearchState) :
    (analysisPhase a t d).2.2.2 = false := by
  unfold analysisPhase
  dsimp only
  repeat' split
  all_goals simp

theorem hopBody_fields (env : LoopEnv) (h : HopEnv) (s : ResearchState) :
    (hopBody env h s).1.currentDepth = s.currentDepth ∧
    (hopBody env h s).1.maxFailedAttempts = s.maxFailedAttempts ∧
    (hopBody env h s).1.failedAttempts =
      (if ((hopBody env h s).2.2.1 || (hopBody env h s).2.2.2) = true
        then s.failedAttempts + 1 else s.failedAttempts) ∧
    ((hopBody env h s).2.1 = some ExitReason.failedAttempts ↔
      ((hopBody env h s).2.2.1 || (hopBody env h s).2.2.2) = true ∧
        s.maxFailedAttempts ≤ s.failedAttempts + 1) ∧
    (hopBody env h s).2.1 ≠ some ExitReason.timeLimitReached ∧
    (hopBody env h s).2.1 ≠ some ExitReason.depthLimit := by
  unfold hopBody
  dsimp only
  repeat' split
  all_goals
    simp_all [searchRound_currentDepth, selectTopic_currentDepth,
      searchRound_failedAttempts, selectTopic_failedAttempts,
      searchRound_maxFailedAttempts, selectTopic_maxFailedAttempts,
      analysisPhase_currentDepth, analysisPhase_failedAttempts,
      analysisPhase_maxFailedAttempts, analysisPhase_not_failed,
      analysisPhase_not_time, analysisPhase_not_depth,
      analysisPhase_noNew, analysisPhase_nullA]

theorem loopGo_depth_spec (env : LoopEnv) :
    ∀ (fuel : Nat) (s : ResearchState), s.currentDepth + fuel = maxDepth →
      (loopGo env fuel s).1.currentDepth ≤ maxDepth ∧
      (loopGo env fuel s).2.2.map HopRec.idx =
        List.range' s.currentDepth (loopGo env fuel s).2.2.length ∧
      (loopGo env fuel s).1.currentDepth =
        s.currentDepth + (loopGo env fuel s).2.2.length ∧
      (∀ r ∈ (loopGo env fuel s).2.2, (env.hops r.idx).elapsed < timeLimit) ∧
      ((loopGo env fuel s).2.1 = ExitReason.timeLimitReached →
        timeLimit ≤ (env.hops (loopGo env fuel s).1.currentDepth).elapsed ∧
        (loopGo env fuel s).1.currentDepth < maxDepth) ∧
      ((loopGo env fuel s).2.1 = ExitReason.depthLimit →
        (loopGo env fuel s).1.currentDepth = maxDepth) := by
  intro fuel
  induction fuel with
  | zero =>
    intro s hs
    refine ⟨by simp [loopGo, maxDepth] at hs ⊢; omega, by simp [loopGo],
      by simp [loopGo], by simp [loopGo], ?_, ?_⟩
    · intro hcon
      simp [loopGo] at hcon
    · intro _
      simp only [loopGo]
      omega
  | succ fuel ih =>
    intro s hs
    have hguard : s.currentDepth < maxDepth := by omega
    by_cases ht : timeLimit ≤ (env.hops s.currentDepth).elapsed
    · have hred : loopGo env (fuel + 1) s = (s, .timeLimitReached, []) := by
        simp only [loopGo]
        rw [if_pos hguard, if_pos ht]
      rw [hred]
      dsimp only
      refine ⟨by omega, by simp, by simp, by simp, ?_, ?_⟩
      · intro _
        exact ⟨ht, hguard⟩
      · intro hcon
        simp at hcon
    · obtain ⟨hbd, hbm, hbf, hbi, hbt, hbdep⟩ :=
        hopBody_fields env (env.hops s.currentDepth)
          { s with currentDepth := s.currentDepth + 1 }
      rcases hhb : hopBody env (env.hops s.currentDepth)
          { s with currentDepth := s.currentDepth + 1 } with ⟨s2, er, noNew, nullA⟩
      rw [hhb] at hbd hbm hbf hbi hbt hbdep
      dsimp only at hbd hbm hbf hbi hbt hbdep
      cases er with
      | some r =>
        have hred : loopGo env (fuel + 1) s =
            (s2, r, [⟨s.currentDepth, noNew, nullA, s.failedAttempts,
              s2.failedAttempts⟩]) := by
          simp only [loopGo]
          rw [if_pos hguard, if_neg ht, hhb]
        rw [hred]
        dsimp only
        refine ⟨by omega, by simp [List.range'_one], by simp [hbd], ?_, ?_, ?_⟩
        · intro r2 hr2
          rcases List.mem_cons.mp hr2 with rfl | hmem
          · exact Nat.lt_of_not_le ht
          · simp at hmem
        · intro hcon
          exact absurd (by rw [hcon]) hbt
        · intro hcon
          exact absurd (by rw [hcon]) hbdep
      | none =>
        have hred : loopGo env (fuel + 1) s =
            ((loopGo env fuel s2).1, (loopGo env fuel s2).2.1,
             (⟨s.currentDepth, noNew, nullA, s.failedAttempts,
               s2.failedAttempts⟩ : HopRec) :: (loopGo env fuel s2).2.2) := by
          simp only [loopGo]
          rw [if_pos hguard, if_neg ht, hhb]
        rw [hred]
        dsimp only
        obtain ⟨ih1, ih2, ih3, ih4, ih5, ih6⟩ := ih s2 (by omega)
        refine ⟨ih1, ?_, ?_, ?_, ih5, ih6⟩
        · simp only [List.map_cons, List.length_cons]
          rw [List.range'_succ, ih2, hbd]
        · simp only [List.length_cons]
          omega
        · intro r2 hr2
          rcases List.mem_cons.mp hr2 with rfl | hmem
          · exact Nat.lt_of_not_le ht
          · exact ih4 r2 hmem

/-- C2: the eval-mode research loop is bounded: the hops executed are
exactly depths 0, 1, ..., d-1 for the final `currentDepth` d (so the depth
starts at 0, rises by exactly one per iteration, and the hop count equals
the final depth), d never exceeds `maxDepth` = 6, the elapsed-time budget
is checked at the top of every executed hop (each executed hop saw elapsed
time below the limit), a time-limit exit leaves the loop at such a
top-of-hop check with the budget reached, and a depth-limit exit happens
exactly at depth 6. -/
theorem browseCompLoop_bounded (env : LoopEnv) :
    (runBrowseComp env).1.currentDepth ≤ maxDepth ∧
    (runBrowseComp env).2.2.length = (runBrowseComp env).1.currentDepth ∧
    (runBrowseComp env).2.2.map HopRec.idx =
      List.range (runBrowseComp env).1.currentDepth ∧
    (∀ r ∈ (runBrowseComp env).2.2, (env.hops r.idx).elapsed < timeLimit) ∧
    ((runBrowseComp env).2.1 = ExitReason.timeLimitReached →
      timeLimit ≤ (env.hops (runBrowseComp env).1.currentDepth).elapsed ∧
      (runBrowseComp env).1.currentDepth < maxDepth) ∧
    ((runBrowseComp env).2.1 = ExitReason.depthLimit →
      (runBrowseComp env).1.currentDepth = maxDepth) := by
  unfold runBrowseComp
  obtain ⟨h1, h2, h3, h4, h5, h6⟩ :=
    loopGo_depth_spec env maxDepth initialResearchState rfl
  have h0 : initialResearchState.currentDepth = 0 := rfl
  rw [h0] at h2 h3
  refine ⟨h1, by omega, ?_, h4, h5, h6⟩
  rw [List.range_eq_range', h2]
  congr 1
  omega

/-- Witness for C2 at a concrete environment. -/
theorem browseCompLoop_bounded_witness :
    (runBrowseComp
      { question := ("q".data),
        hops := fun _ =>
          { elapsed := timeLimit, subqGen := none, searches := fun _ => none,
            extractResult := fun _ => [], analysis := none },
        generateFallbackQuery := fun _ => ("f".data),
        extractKeyTerms := fun _ => ("k".data) }).1.currentDepth ≤ maxDepth :=
  (browseCompLoop_bounded _).1

theorem loopGo_failed_spec (env : LoopEnv) :
    ∀ (fuel : Nat) (s : ResearchState), s.maxFailedAttempts = 3 →
      s.failedAttempts ≤ 2 →
      (∀ r ∈ (loopGo env fuel s).2.2,
        r.failedAfter =
          (if hopFlagged r = true then r.failedBefore + 1 else r.failedBefore)) ∧
      List.Chain' (fun a b => b.failedBefore = a.failedAfter)
        (loopGo env fuel s).2.2 ∧
      (∀ r, (loopGo env fuel s).2.2.head? = some r →
        r.failedBefore = s.failedAttempts) ∧
      (loopGo env fuel s).1.failedAttempts =
        (((loopGo env fuel s).2.2.getLast?).map HopRec.failedAfter).getD
          s.failedAttempts ∧
      (loopGo env fuel s).1.failedAttempts ≤ 3 ∧
      ((loopGo env fuel s).2.1 = ExitReason.failedAttempts →
        (loopGo env fuel s).1.failedAttempts = 3) := by
  intro fuel
  induction fuel with
  | zero =>
    intro s hm hf
    refine ⟨by simp [loopGo], by simp [loopGo], by simp [loopGo],
      by simp [loopGo], by simp [loopGo]; omega, ?_⟩
    intro hcon
    simp [loopGo] at hcon
  | succ fuel ih =>
    intro s hm hf
    by_cases hguard : s.currentDepth < maxDepth
    case neg =>
      have hred : loopGo env (fuel + 1) s = (s, .depthLimit, []) := by
        simp only [loopGo]
        rw [if_neg hguard]
      rw [hred]
      dsimp only
      refine ⟨by simp, by simp, by simp, by simp, by omega, ?_⟩
      intro hcon
      simp at hcon
    case pos =>
    by_cases ht : timeLimit ≤ (env.hops s.currentDepth).elapsed
    · have hred : loopGo env (fuel + 1) s = (s, .timeLimitReached, []) := by
        simp only [loopGo]
        rw [if_pos hguard, if_pos ht]
      rw [hred]
      dsimp only
      refine ⟨by simp, by simp, by simp, by simp, by omega, ?_⟩
      intro hcon
      simp at hcon
    · obtain ⟨hbd, hbm, hbf, hbi, hbt, hbdep⟩ :=
        hopBody_fields env (env.hops s.currentDepth)
          { s with currentDepth := s.currentDepth + 1 }
      rcases hhb : hopBody env (env.hops s.currentDepth)
          { s with currentDepth := s.currentDepth + 1 } with ⟨s2, er, noNew, nullA⟩
      rw [hhb] at hbd hbm hbf hbi hbt hbdep
      dsimp only at hbd hbm hbf hbi hbt hbdep
      cases er with
      | some r =>
        have hred : loopGo env (fuel + 1) s =
            (s2, r, [⟨s.currentDepth, noNew, nullA, s.failedAttempts,
              s2.failedAttempts⟩]) := by
          simp only [loopGo]
          rw [if_pos hguard, if_neg ht, hhb]
        rw [hred]
        dsimp only
        refine ⟨?_, by simp, ?_, by simp, ?_, ?_⟩
        · intro r2 hr2
          rcases List.mem_cons.mp hr2 with rfl | hmem
          · simpa [hopFlagged] using hbf
          · simp at hmem
        · intro r2 hr2
          simp only [List.head?_cons, Option.some.injEq] at hr2
          rw [← hr2]
        · rw [hbf]
          split <;> omega
        · intro hcon
          obtain ⟨hflag, hle⟩ := hbi.mp (by rw [hcon])
          rw [hm] at hle
          rw [hbf, if_pos hflag]
          omega
      | none =>
        have hs2f : s2.failedAttempts ≤ 2 := by
          by_cases hfl : (noNew || nullA) = true
          · have hnot : ¬((noNew || nullA) = true ∧
                s.maxFailedAttempts ≤ s.failedAttempts + 1) := by
              intro hcontra
              have hx := hbi.mpr hcontra
              simp at hx
            rw [hbf, if_pos hfl]
            rw [hm] at hnot
            have h3 : ¬(3 ≤ s.failedAttempts + 1) := fun hle => hnot ⟨hfl, hle⟩
            omega
          · rw [hbf, if_neg hfl]
            exact hf
        have hs2m : s2.maxFailedAttempts = 3 := by rw [hbm, hm]
        obtain ⟨ih1, ih2, ih3, ih4, ih5, ih6⟩ := ih s2 hs2m hs2f
        have hred : loopGo env (fuel + 1) s =
            ((loopGo env fuel s2).1, (loopGo env fuel s2).2.1,
             (⟨s.currentDepth, noNew, nullA, s.failedAttempts,
               s2.failedAttempts⟩ : HopRec) :: (loopGo env fuel s2).2.2) := by
          simp only [loopGo]
          rw [if_pos hguard, if_neg ht, hhb]
        rw [hred]
        dsimp only
        refine ⟨?_, ?_, ?_, ?_, ih5, ih6⟩
        · intro r2 hr2
          rcases List.mem_cons.mp hr2 with rfl | hmem
          · simpa [hopFlagged] using hbf
          · exact ih1 r2 hmem
        · rw [List.chain'_cons']
          refine ⟨?_, ih2⟩
          intro y hy
          cases hhd : (loopGo env fuel s2).2.2.head? with
          | none => rw [hhd] at hy; simp at hy
          | some y2 =>
            rw [hhd] at hy
            simp at hy
            subst hy
            exact ih3 y2 hhd
        · intro r2 hr2
          simp only [List.head?_cons, Option.some.injEq] at hr2
          rw [← hr2]
        · cases hl : (loopGo env fuel s2).2.2 with
          | nil =>
            rw [hl] at ih4
            simp at ih4
            simp [ih4]
          | cons x xs =>
            rw [hl] at ih4
            rw [List.getLast?_cons_cons]
            cases hgl : (x :: xs).getLast? with
            | none =>
              have hne : (x :: xs).getLast?.isSome = true := by
                rw [List.getLast?_isSome]
                simp
              rw [hgl] at hne
              cases hne
            | some y =>
              rw [hgl] at ih4
              simpa using ih4

/-- C8 amended: along every run, `failedAttempts` starts at 0, each
executed hop raises it by exactly one when its flag fires and leaves it
unchanged otherwise (so it is never reset or decremented), where the flag
fires exactly when (a) the hop's search round yields no unprocessed URL
(`topUrls` empty) — which need not coincide with a search throwing after
its retries — or (b) the analysis value is falsy; the counter never
exceeds `maxFailedAttempts` (3), and a `failedAttempts` exit leaves the
loop with the counter exactly at 3, proceeding to synthesis. -/
theorem failedAttempts_amended (env : LoopEnv) :
    (∀ r ∈ (runBrowseComp env).2.2,
      r.failedAfter =
        (if hopFlagged r = true then r.failedBefore + 1 else r.failedBefore)) ∧
    List.Chain' (fun a b => b.failedBefore = a.failedAfter)
      (runBrowseComp env).2.2 ∧
    (∀ r, (runBrowseComp env).2.2.head? = some r → r.failedBefore = 0) ∧
    (runBrowseComp env).1.failedAttempts =
      (((runBrowseComp env).2.2.getLast?).map HopRec.failedAfter).getD 0 ∧
    (runBrowseComp env).1.failedAttempts ≤ 3 ∧
    ((runBrowseComp env).2.1 = ExitReason.failedAttempts →
      (runBrowseComp env).1.failedAttempts = 3) :=
  loopGo_failed_spec env maxDepth initialResearchState rfl (by decide)

/-- Witness for C8 at a concrete environment. -/
theorem failedAttempts_amended_witness :
    (runBrowseComp
      { question := ("q".data),
        hops := fun _ =>
          { elapsed := timeLimit, subqGen := none, searches := fun _ => none,
            extractResult := fun _ => [], analysis := none },
        generateFallbackQuery := fun _ => ("f".data),
        extractKeyTerms := fun _ => ("k".data) }).1.failedAttempts ≤ 3 :=
  (failedAttempts_amended _).2.2.2.2.1

def cxHitA : SearchHit := ⟨"https://a.example/1".data, "A".data⟩
def cxHitB : SearchHit := ⟨"https://b.example/1".data, "B".data⟩
def cxHitC : SearchHit := ⟨"https://c.example/1".data, "C".data⟩
def cxHitD : SearchHit := ⟨"https://d.example/1".data, "D".data⟩

def cxAnalysisGo : AnalysisResult :=
  { summary := ("s".data), hasAnswer := false, confidence := ('l' :: "ow".data),
    gaps := [], shouldContinue := true, nextSearchTopic := none,
    urlToSearch := none, subquestions := none, subAnswer := none,
    lastQuery := none }

def cxAnalysisStop : AnalysisResult := { cxAnalysisGo with shouldContinue := false }

/-- Hop 0 of the C8 counterexample: every search succeeds and returns four
URLs, of which only the top three get processed. -/
def cxHop0 : HopEnv :=
  { elapsed := 0, subqGen := none,
    searches := fun _ => some [cxHitA, cxHitB, cxHitC, cxHitD],
    extractResult := fun _ => [], analysis := some cxAnalysisGo }

/-- Hop 1 of the C8 counterexample: every search THROWS after its retries,
yet the leftover unprocessed URL keeps `topUrls` nonempty. -/
def cxHop1 : HopEnv :=
  { elapsed := 1000, subqGen := none, searches := fun _ => none,
    extractResult := fun _ => [], analysis := some cxAnalysisStop }

def cxEnvC8 : LoopEnv :=
  { question := ("q".data), hops := fun k => if k = 0 then cxHop0 else cxHop1,
    generateFallbackQuery := fun _ => ("f".data),
    extractKeyTerms := fun _ => ("k".data) }

/-- C8 as stated is false: in this run hop 1 executes with every one of its
five searches failing after all retries (the oracle answers `none`), yet
`failedAttempts` is never incremented — the fourth URL found at hop 0 keeps
`topUrls` nonempty, and the increment is tied to `topUrls` being empty, not
to search failure. -/
theorem failedAttempts_counterexample :
    (∀ j < 5, (cxEnvC8.hops 1).searches j = none) ∧
    (runBrowseComp cxEnvC8).2.2.map HopRec.idx = [0, 1] ∧
    (runBrowseComp cxEnvC8).2.2.map hopFlagged = [false, false] ∧
    (runBrowseComp cxEnvC8).1.failedAttempts = 0 := by decide

/-! Claim theorems for the Formatter (C1 and C4). -/

theorem mem_capture_field (pat : Str) (stops : List Str) (text : Str) :
    ∀ c ∈ ((((dropLabelCI pat text).map
      (fun r => captureUntil stops (r.dropWhile jsSpace))).map trimStr).getD []),
      c ∈ text := by
  intro c hc
  cases hd : dropLabelCI pat text with
  | none => rw [hd] at hc; simp at hc
  | some r =>
    rw [hd] at hc
    have hc2 : c ∈ trimStr (captureUntil stops (r.dropWhile jsSpace)) := hc
    have h1 := mem_of_trimStr _ c hc2
    have h2 := mem_of_captureUntil stops _ c h1
    have h3 := mem_of_dropWhile jsSpace r c h2
    exact mem_of_dropLabelCI pat text r hd c h3

theorem confTail_shape (r cap : Str) (h : confTail r = some cap) :
    ∃ ds, cap = ds ++ ['%'] ∧ ds ≠ [] ∧ ds.length ≤ 3 ∧
      ∀ c ∈ ds, c.isDigit = true := by
  unfold confTail at h
  dsimp only at h
  split at h
  · rename_i hcnd
    injection h with h
    exact ⟨(r.dropWhile jsSpace).takeWhile Char.isDigit, h.symm, hcnd.1,
      hcnd.2.1, fun c hc => List.mem_takeWhile_imp hc⟩
  · cases h

theorem confSearch_shape (s cap : Str) (h : confSearch s = some cap) :
    ∃ ds, cap = ds ++ ['%'] ∧ ds ≠ [] ∧ ds.length ≤ 3 ∧
      ∀ c ∈ ds, c.isDigit = true := by
  induction s with
  | nil => simp [confSearch] at h
  | cons c t ih =>
    rw [confSearch] at h
    by_cases hp : confLabel.isPrefixOf (lowerStr (c :: t)) = true
    · rw [if_pos hp] at h
      cases hct : confTail ((c :: t).drop confLabel.length) with
      | some r =>
        rw [hct] at h
        injection h with h
        exact h ▸ confTail_shape _ r hct
      | none =>
        rw [hct] at h
        exact ih h
    · rw [if_neg hp] at h
      exact ih h

theorem trim_conf_shape (ds : Str) (hne : ds ≠ [])
    (hdig : ∀ c ∈ ds, c.isDigit = true) :
    trimStr (ds ++ ['%']) = ds ++ ['%'] := by
  apply trimStr_eq_self_of
  · intro c hc
    cases ds with
    | nil => exact absurd rfl hne
    | cons d dt =>
      simp only [List.cons_append, List.head?_cons, Option.some.injEq] at hc
      subst hc
      exact jsSpace_of_digit d (hdig d (List.mem_cons_self d dt))
  · intro c hc
    rw [List.getLast?_concat] at hc
    injection hc with hc
    subst hc
    decide

theorem conf_not_label (ds : Str) (hne : ds ≠ [])
    (hdig : ∀ c ∈ ds, c.isDigit = true) :
    lcStartsWith confLabel (ds ++ ['%']) = false := by
  cases ds with
  | nil => exact absurd rfl hne
  | cons d dt =>
    rw [List.cons_append]
    exact lcStartsWith_false_of_digit_head confLabel 'c' ("onfidence:".data) rfl
      (by decide) d (dt ++ ['%']) (hdig d (List.mem_cons_self d dt))

theorem salvage_three_lines (E A C : Str) (hE : '\n' ∉ E) (hA : '\n' ∉ A)
    (hC : '\n' ∉ C) :
    splitNl (E ++ '\n' :: (A ++ '\n' :: C)) = [E, A, C] := by
  unfold splitNl
  rw [splitOnChar_append '\n' E _ hE]
  congr 1
  rw [splitOnChar_append '\n' A C hA]
  congr 1
  exact splitOnChar_not_mem '\n' C hC

theorem line_spec (label prefixPart v : Str)
    (hpl : lcStartsWith label prefixPart = true) (hpn : '\n' ∉ prefixPart)
    (hv : '\n' ∉ v) :
    lcStartsWith label (if lcStartsWith label v then v else prefixPart ++ v) = true ∧
    '\n' ∉ (if lcStartsWith label v then v else prefixPart ++ v) := by
  by_cases h : lcStartsWith label v = true
  · rw [if_pos h]
    exact ⟨h, hv⟩
  · rw [if_neg h]
    refine ⟨lcStartsWith_append_left _ _ _ hpl, ?_⟩
    intro hm
    rcases List.mem_append.mp hm with hm | hm
    · exact hpn hm
    · exact hv hm

theorem default_or_noNL (d v : Str) (hd : '\n' ∉ d) (hv : '\n' ∉ v) :
    '\n' ∉ (if v = [] then d else v) := by
  split
  · exact hd
  · exact hv

theorem fallback_three_lines (q : Str) (hq : '\n' ∉ q) :
    ∃ l0 l1 l2, splitNl (fallbackAnswer q) = [l0, l1, l2] ∧
      lcStartsWith expLabel l0 = true ∧ lcStartsWith exaLabel l1 = true ∧
      ∃ ds, l2 = confPrefix ++ (ds ++ ['%']) ∧ ds ≠ [] ∧ ds.length ≤ 3 ∧
        ∀ c ∈ ds, c.isDigit = true := by
  have hEnn : '\n' ∉ fbLine1a ++ q ++ fbLine1b := by
    intro hm
    rcases List.mem_append.mp hm with hm | hm
    · rcases List.mem_append.mp hm with hm | hm
      · revert hm; decide
      · exact hq hm
    · revert hm; decide
  refine ⟨fbLine1a ++ q ++ fbLine1b, fbLine2, fbLine3,
    salvage_three_lines _ _ _ hEnn (by decide) (by decide),
    lcStartsWith_append_left expLabel (fbLine1a ++ q) fbLine1b
      (lcStartsWith_append_left expLabel fbLine1a q (by decide)),
    by decide, ('1' :: ['0']), by decide, by decide, by decide, by decide⟩

theorem salvage_output_spec (ev av cv : Str)
    (hev : '\n' ∉ ev) (hav : '\n' ∉ av)
    (hcv : cv = [] ∨ ∃ ds, cv = ds ++ ['%'] ∧ ds ≠ [] ∧ ds.length ≤ 3 ∧
      ∀ c ∈ ds, c.isDigit = true) :
    ∃ l0 l1 l2,
      splitNl
        ((if lcStartsWith expLabel (if ev = [] then defaultExplanation else ev)
          then (if ev = [] then defaultExplanation else ev)
          else expPrefix ++ (if ev = [] then defaultExplanation else ev)) ++
         '\n' ::
          ((if lcStartsWith exaLabel (if av = [] then defaultAnswer else av)
            then (if av = [] then defaultAnswer else av)
            else exaPrefix ++ (if av = [] then defaultAnswer else av)) ++
           '\n' ::
            (if lcStartsWith confLabel (if cv = [] then defaultConfidence else cv)
             then (if cv = [] then defaultConfidence else cv)
             else confPrefix ++ (if cv = [] then defaultConfidence else cv)))) =
        [l0, l1, l2] ∧
      lcStartsWith expLabel l0 = true ∧ lcStartsWith exaLabel l1 = true ∧
      ∃ ds, l2 = confPrefix ++ (ds ++ ['%']) ∧ ds ≠ [] ∧ ds.length ≤ 3 ∧
        ∀ c ∈ ds, c.isDigit = true := by
  obtain ⟨ds, hc1, hdne, hdlen, hddig⟩ :
      ∃ ds, (if cv = [] then defaultConfidence else cv) = ds ++ ['%'] ∧
        ds ≠ [] ∧ ds.length ≤ 3 ∧ ∀ c ∈ ds, c.isDigit = true := by
    rcases hcv with hnil | ⟨ds, hds, hne, hlen, hdig⟩
    · exact ⟨('3' :: ['0']), by rw [if_pos hnil]; decide, by decide, by decide,
        by decide⟩
    · have hcne : ¬(cv = []) := by
        rw [hds]
        simp
      exact ⟨ds, by rw [if_neg hcne]; exact hds, hne, hlen, hdig⟩
  have hclabel : lcStartsWith confLabel
      (if cv = [] then defaultConfidence else cv) = false := by
    rw [hc1]
    exact conf_not_label ds hdne hddig
  have hCeq : (if lcStartsWith confLabel (if cv = [] then defaultConfidence else cv)
      then (if cv = [] then defaultConfidence else cv)
      else confPrefix ++ (if cv = [] then defaultConfidence else cv)) =
      confPrefix ++ (ds ++ ['%']) := by
    rw [hclabel]
    simp only [Bool.false_eq_true, if_false]
    rw [hc1]
  have hCnn : '\n' ∉ confPrefix ++ (ds ++ ['%']) := by
    intro hm
    rcases List.mem_append.mp hm with hm | hm
    · revert hm; decide
    · rcases List.mem_append.mp hm with hm | hm
      · exact absurd (hddig _ hm) (by decide)
      · simp at hm
  have hE := line_spec expLabel expPrefix (if ev = [] then defaultExplanation else ev)
    (by decide) (by decide) (default_or_noNL _ _ (by decide) hev)
  have hA := line_spec exaLabel exaPrefix (if av = [] then defaultAnswer else av)
    (by decide) (by decide) (default_or_noNL _ _ (by decide) hav)
  rw [hCeq]
  exact ⟨_, _, _, salvage_three_lines _ _ _ hE.2 hA.2 hCnn, hE.1, hA.1,
    ds, rfl, hdne, hdlen, hddig⟩

/-- C1 amended: for inputs and questions free of newline characters the
formatter output is exactly three lines, the first two carrying the
`Explanation:` and `Exact Answer:` labels (case-insensitively) and the
third of the form `Confidence: N%` for a nonempty digit string `N` of at
most three digits; `N ≤ 100` is NOT guaranteed, and inputs containing
newlines can produce more than three lines. -/
theorem formatter_three_lines (x q : Str) (hx : '\n' ∉ x) (hq : '\n' ∉ q) :
    ∃ l0 l1 l2, splitNl (ensureValidBrowseCompFormat x q) = [l0, l1, l2] ∧
      lcStartsWith expLabel l0 = true ∧ lcStartsWith exaLabel l1 = true ∧
      ∃ ds, l2 = confPrefix ++ (ds ++ ['%']) ∧ ds ≠ [] ∧ ds.length ≤ 3 ∧
        ∀ c ∈ ds, c.isDigit = true := by
  unfold ensureValidBrowseCompFormat
  by_cases hx0 : x = []
  · rw [if_pos hx0]
    exact fallback_three_lines q hq
  · rw [if_neg hx0]
    dsimp only
    have hnn : '\n' ∉ trimStr x := fun hm => hx (mem_of_trimStr x _ hm)
    have hv : valid3 ((splitNl (trimStr x)).map trimStr) = false := by
      rw [show splitNl (trimStr x) = [trimStr x] from
        splitOnChar_not_mem '\n' _ hnn]
      rfl
    rw [if_neg (show ¬(valid3 ((splitNl (trimStr x)).map trimStr) = true) from
      by simp [hv])]
    by_cases hcnd : (((explanationRaw x).map trimStr).getD []) ≠ [] ∨
        (((exactAnswerRaw x).map trimStr).getD []) ≠ [] ∨
        (((confSearch x).map trimStr).getD []) ≠ []
    · rw [if_pos hcnd]
      have hevnn : '\n' ∉ (((explanationRaw x).map trimStr).getD []) :=
        fun hm => hx (mem_capture_field expLabel [exaLabel, confLabel] x '\n' hm)
      have havnn : '\n' ∉ (((exactAnswerRaw x).map trimStr).getD []) :=
        fun hm => hx (mem_capture_field exaLabel [expLabel, confLabel] x '\n' hm)
      have hcshape : (((confSearch x).map trimStr).getD []) = [] ∨
          ∃ ds, (((confSearch x).map trimStr).getD []) = ds ++ ['%'] ∧
            ds ≠ [] ∧ ds.length ≤ 3 ∧ ∀ c ∈ ds, c.isDigit = true := by
        cases hcs : confSearch x with
        | none => left; rfl
        | some cap =>
          right
          obtain ⟨ds, hds, hne, hlen, hdig⟩ := confSearch_shape x cap hcs
          refine ⟨ds, ?_, hne, hlen, hdig⟩
          show trimStr cap = ds ++ ['%']
          rw [hds]
          exact trim_conf_shape ds hne hdig
      exact salvage_output_spec _ _ _ hevnn havnn hcshape
    · rw [if_neg hcnd]
      exact fallback_three_lines q hq

/-- Input and predicate of the C1 counterexample: does the formatted output
consist of exactly three trimmed-shaped lines whose third matches the
strict `Confidence: (100|[1-9]?[0-9])%` pattern, as the claim asserts. -/
def claimC1At (x q : Str) : Prop :=
  (splitNl (ensureValidBrowseCompFormat x q)).length = 3 ∧
  lcStartsWith expLabel ((splitNl (ensureValidBrowseCompFormat x q)).getD 0 []) = true ∧
  lcStartsWith exaLabel ((splitNl (ensureValidBrowseCompFormat x q)).getD 1 []) = true ∧
  validConfLine ((splitNl (ensureValidBrowseCompFormat x q)).getD 2 []) = true

instance (x q : Str) : Decidable (claimC1At x q) := by
  unfold claimC1At
  infer_instance

/-- C1 as stated is false at two inputs: `Confidence: 500%` is salvaged
verbatim, so the third output line carries 500, outside [0,100]; and the
input `explanation: a⏎b` yields a four-line output. -/
theorem formatter_three_lines_counterexample :
    ¬ claimC1At ("Confidence: 500%".data) ("q".data) ∧
    (splitNl (ensureValidBrowseCompFormat
      ('e' :: "xplanation: a\nb".data) ("q".data))).length = 4 := by decide

/-- Witness for C1 at a concrete input. -/
theorem formatter_three_lines_witness :
    ∃ l0 l1 l2,
      splitNl (ensureValidBrowseCompFormat ("Confidence: 55%".data) ("q".data)) =
        [l0, l1, l2] ∧
      lcStartsWith expLabel l0 = true ∧ lcStartsWith exaLabel l1 = true ∧
      ∃ ds, l2 = confPrefix ++ (ds ++ ['%']) ∧ ds ≠ [] ∧ ds.length ≤ 3 ∧
        ∀ c ∈ ds, c.isDigit = true :=
  formatter_three_lines ("Confidence: 55%".data) ("q".data) (by decide) (by decide)

theorem isPrefixOf_cons_head (p c : Char) (pt ct : Str)
    (h : List.isPrefixOf (p :: pt) (c :: ct) = true) : p = c := by
  simp only [List.isPrefixOf, Bool.and_eq_true, beq_iff_eq] at h
  exact h.1

theorem jsSpace_of_toLower_e (a : Char) (h : Char.toLower a = 'e') :
    jsSpace a = false := by
  cases hj : jsSpace a with
  | false => rfl
  | true =>
    exfalso
    unfold jsSpace at hj
    simp only [Bool.or_eq_true, decide_eq_true_eq] at hj
    rcases hj with ((((hj | hj) | hj) | hj) | hj) | hj <;>
      (subst hj; exact absurd h (by decide))

theorem head_not_space_of_lcexp (s : Str) (h : lcStartsWith expLabel s = true) :
    ∀ c, s.head? = some c → jsSpace c = false := by
  intro c hc
  cases s with
  | nil => exact absurd h (by decide)
  | cons a t =>
    simp only [List.head?_cons, Option.some.injEq] at hc
    subst hc
    have h2 : 'e' = Char.toLower a := by
      rw [show expLabel = 'e' :: ('x' :: "planation:".data) from rfl] at h
      unfold lcStartsWith lowerStr at h
      rw [List.map_cons] at h
      exact isPrefixOf_cons_head _ _ _ _ h
    exact jsSpace_of_toLower_e a h2.symm

theorem getLast?_append_right (a b : Str) (c : Char) (h : b.getLast? = some c) :
    (a ++ b).getLast? = some c := by
  rw [List.getLast?_append, h]
  rfl

theorem getLast?_cons_right (a : Char) (l : Str) (c : Char)
    (h : l.getLast? = some c) : (a :: l).getLast? = some c :=
  getLast?_append_right [a] l c h

theorem getLast?_salvage (E A P : Str) (c : Char) (hP : P.getLast? = some '%')
    (hc : (E ++ '\n' :: (A ++ '\n' :: P)).getLast? = some c) : c = '%' := by
  have h9 : (E ++ '\n' :: (A ++ '\n' :: P)).getLast? = some '%' :=
    getLast?_append_right _ _ _ (getLast?_cons_right _ _ _
      (getLast?_append_right _ _ _ (getLast?_cons_right _ _ _ hP)))
  rw [h9] at hc
  injection hc with hc
  exact hc.symm

theorem fallbackAnswer_head (q : Str) : (fallbackAnswer q).head? = some 'E' := rfl

theorem fallbackAnswer_last (q : Str) : (fallbackAnswer q).getLast? = some '%' := by
  unfold fallbackAnswer
  exact getLast?_append_right _ _ _ (by decide)

theorem trimStr_fallback (q : Str) :
    trimStr (fallbackAnswer q) = fallbackAnswer q := by
  apply trimStr_eq_self_of
  · intro c hc
    rw [fallbackAnswer_head q] at hc
    injection hc with hc
    subst hc
    decide
  · intro c hc
    rw [fallbackAnswer_last q] at hc
    injection hc with hc
    subst hc
    decide

theorem trimStr_salvage (ev av cv : Str)
    (hcv : cv = [] ∨ ∃ ds, cv = ds ++ ['%'] ∧ ds ≠ [] ∧ ds.length ≤ 3 ∧
      ∀ c ∈ ds, c.isDigit = true) :
    trimStr
        ((if lcStartsWith expLabel (if ev = [] then defaultExplanation else ev)
          then (if ev = [] then defaultExplanation else ev)
          else expPrefix ++ (if ev = [] then defaultExplanation else ev)) ++
         '\n' ::
          ((if lcStartsWith exaLabel (if av = [] then defaultAnswer else av)
            then (if av = [] then defaultAnswer else av)
            else exaPrefix ++ (if av = [] then defaultAnswer else av)) ++
           '\n' ::
            (if lcStartsWith confLabel (if cv = [] then defaultConfidence else cv)
             then (if cv = [] then defaultConfidence else cv)
             else confPrefix ++ (if cv = [] then defaultConfidence else cv)))) =
      ((if lcStartsWith expLabel (if ev = [] then defaultExplanation else ev)
        then (if ev = [] then defaultExplanation else ev)
        else expPrefix ++ (if ev = [] then defaultExplanation else ev)) ++
       '\n' ::
        ((if lcStartsWith exaLabel (if av = [] then defaultAnswer else av)
          then (if av = [] then defaultAnswer else av)
          else exaPrefix ++ (if av = [] then defaultAnswer else av)) ++
         '\n' ::
          (if lcStartsWith confLabel (if cv = [] then defaultConfidence else cv)
           then (if cv = [] then defaultConfidence else cv)
           else confPrefix ++ (if cv = [] then defaultConfidence else cv)))) := by
  obtain ⟨ds, hc1, hdne, hdlen, hddig⟩ :
      ∃ ds, (if cv = [] then defaultConfidence else cv) = ds ++ ['%'] ∧
        ds ≠ [] ∧ ds.length ≤ 3 ∧ ∀ c ∈ ds, c.isDigit = true := by
    rcases hcv with hnil | ⟨ds, hds, hne, hlen, hdig⟩
    · exact ⟨('3' :: ['0']), by rw [if_pos hnil]; decide, by decide, by decide,
        by decide⟩
    · have hcne : ¬(cv = []) := by
        rw [hds]
        simp
      exact ⟨ds, by rw [if_neg hcne]; exact hds, hne, hlen, hdig⟩
  have hclabel : lcStartsWith confLabel
      (if cv = [] then defaultConfidence else cv) = false := by
    rw [hc1]
    exact conf_not_label ds hdne hddig
  have hCeq : (if lcStartsWith confLabel (if cv = [] then defaultConfidence else cv)
      then (if cv = [] then defaultConfidence else cv)
      else confPrefix ++ (if cv = [] then defaultConfidence else cv)) =
      confPrefix ++ (ds ++ ['%']) := by
    rw [hclabel]
    simp only [Bool.false_eq_true, if_false]
    rw [hc1]
  rw [hCeq]
  apply trimStr_eq_self_of
  · intro c hc
    by_cases hEb : lcStartsWith expLabel
        (if ev = [] then defaultExplanation else ev) = true
    · rw [if_pos hEb] at hc
      cases hevv : (if ev = [] then defaultExplanation else ev) with
      | nil => rw [hevv] at hEb; exact absurd hEb (by decide)
      | cons a t =>
        rw [hevv] at hEb hc
        simp only [List.cons_append, List.head?_cons, Option.some.injEq] at hc
        subst hc
        exact head_not_space_of_lcexp (a :: t) hEb a rfl
    · rw [if_neg hEb] at hc
      simp only [expPrefix, List.cons_append, List.head?_cons,
        Option.some.injEq] at hc
      subst hc
      decide
  · intro c hc
    have h1 : (ds ++ ['%']).getLast? = some '%' := by
      rw [List.getLast?_concat]
    have hP : (confPrefix ++ (ds ++ ['%'])).getLast? = some '%' :=
      getLast?_append_right _ _ _ h1
    have hce := getLast?_salvage _ _ _ c hP hc
    rw [hce]
    decide

theorem trimStr_fmt (x q : Str) :
    trimStr (ensureValidBrowseCompFormat x q) = ensureValidBrowseCompFormat x q := by
  unfold ensureValidBrowseCompFormat
  by_cases hx0 : x = []
  · rw [if_pos hx0]
    exact trimStr_fallback q
  · rw [if_neg hx0]
    dsimp only
    by_cases hv : valid3 ((splitNl (trimStr x)).map trimStr) = true
    · rw [if_pos hv]
      exact trimStr_idem x
    · rw [if_neg hv]
      by_cases hcnd : (((explanationRaw x).map trimStr).getD []) ≠ [] ∨
          (((exactAnswerRaw x).map trimStr).getD []) ≠ [] ∨
          (((confSearch x).map trimStr).getD []) ≠ []
      · rw [if_pos hcnd]
        have hcshape : (((confSearch x).map trimStr).getD []) = [] ∨
            ∃ ds, (((confSearch x).map trimStr).getD []) = ds ++ ['%'] ∧
              ds ≠ [] ∧ ds.length ≤ 3 ∧ ∀ c ∈ ds, c.isDigit = true := by
          cases hcs : confSearch x with
          | none => left; rfl
          | some cap =>
            right
            obtain ⟨ds, hds, hne, hlen, hdig⟩ := confSearch_shape x cap hcs
            refine ⟨ds, ?_, hne, hlen, hdig⟩
            show trimStr cap = ds ++ ['%']
            rw [hds]
            exact trim_conf_shape ds hne hdig
        exact trimStr_salvage _ _ _ hcshape
      · rw [if_neg hcnd]
        exact trimStr_fallback q

/-- Shape check of route lines 88-92 applied to a whole string: after an
outer trim and a per-line trim there are exactly three lines carrying the
three labels. -/
def validShape (s : Str) : Bool := valid3 ((splitNl (trimStr s)).map trimStr)

theorem fmt_of_valid (y q : Str) (hne : ¬(y = []))
    (h : valid3 ((splitNl (trimStr y)).map trimStr) = true) :
    ensureValidBrowseCompFormat y q = trimStr y := by
  unfold ensureValidBrowseCompFormat
  rw [if_neg hne]
  dsimp only
  rw [if_pos h]

/-- C4 amended: the formatter is idempotent on every input whose formatted
output passes the three-line shape check (in particular whenever the first
pass returns the fallback answer, the untouched valid input, or a salvage
whose confidence digits form a valid percentage); it is NOT idempotent in
general, because a salvaged line that already carries a label is kept
verbatim on the first pass but re-captured without the label on the
second. -/
theorem formatter_idempotent_amended (x q : Str)
    (h : validShape (ensureValidBrowseCompFormat x q) = true) :
    ensureValidBrowseCompFormat (ensureValidBrowseCompFormat x q) q =
      ensureValidBrowseCompFormat x q := by
  have hne : ¬(ensureValidBrowseCompFormat x q = []) := by
    intro h0
    rw [h0] at h
    exact absurd h (by decide)
  unfold validShape at h
  rw [fmt_of_valid (ensureValidBrowseCompFormat x q) q hne h]
  exact trimStr_fmt x q

def cxC4Input : Str := ('e' :: "xplanation:explanation:hi confidence: 007%".data)

/-- C4 as stated is false: on `explanation:explanation:hi confidence: 007%`
the first pass keeps the captured `explanation:hi` verbatim (it already
carries the label) with confidence `007%`; that output fails the strict
shape check, so the second pass salvages again and re-captures `hi`,
prefixing a fresh label and changing the string. -/
theorem formatter_idempotent_counterexample :
    ensureValidBrowseCompFormat
        (ensureValidBrowseCompFormat cxC4Input ("q".data)) ("q".data) ≠
      ensureValidBrowseCompFormat cxC4Input ("q".data) := by decide

/-- Witness for C4 at a concrete input. -/
theorem formatter_idempotent_witness :
    ensureValidBrowseCompFormat
        (ensureValidBrowseCompFormat [] ("test".data)) ("test".data) =
      ensureValidBrowseCompFormat [] ("test".data) :=
  formatter_idempotent_amended [] ("test".data) (by decide)

end BrowseComp
